import Mathlib

/-!
# Verification of the ConfigureEx augmentation resolver

A shallow embedding of the resolver implemented in
`tools/scons/configureex.py`, together with proofs about it.

Modelling conventions, fixed once for the whole file:

* Tools (providers) and components are modelled as `String`, matching the
  string names used by the source.
* Check functions are externally-supplied, side-effecting callables.  They
  are modelled by an identifier (`Nat`) plus an oracle
  `res : Nat → CheckBehavior` giving the observable outcome of calling the
  check: either it returns a Python value or it raises.  The embedding of
  the check-running loop additionally records the list of identifiers of
  the checks it actually called (`executed`); this instruments an
  observable event of the source (the call `check()`), it adds no
  behaviour.
* Python exceptions escaping a function are modelled with `Except Unit`;
  `Except.error ()` is an exception propagating to the caller.
* The SCons environment internals (`Configure()` contexts, the value of
  environment keys, `ENVPre`/`ENVPost` variables, the `TOOLS` trimming of
  the cloned environment object) are outside every claim considered here;
  the session state kept is the resolver's own bookkeeping
  (`__applied_tools`, `__applied_checks`) plus the committed augment list.
  The base environment enters only through its key set
  (`base : List String`, the keys of `self._base.Dictionary()`).
* The provider cache is modelled post-discovery: `compOf t` is the
  component table `ConfExCache.Components[t]` (an association list
  component ↦ no_overlap flag) and `ctools` is `ConfExCache.Tools`.  The
  lazy `AddTool` discovery performed by `GetTool` on a cache miss calls the
  external, side-effecting `env.Detect`; theorems below are therefore about
  sessions whose cache already knows the components of every tool it
  lists, which is the state `GetTool` itself establishes before probing a
  tool.
* Python object identity (used by `in` / `list.remove` on specification
  and augment objects) is modelled by identifier fields: `sid` on
  specifications, `aid` on augments.  Distinct objects carry distinct
  identifiers.
-/

namespace ConfigureEx

/-- A Python value returned by a check function, as far as the validation
logic can distinguish them: booleans, ints, strings, `None`, anything
else. -/
inductive PyVal where
  | bool (b : Bool)
  | int (i : Int)
  | str (s : String)
  | none
  | other
deriving DecidableEq, Repr

/-- Python `result == False`: `False` itself and numeric zero compare equal
to `False`; strings, `None` and other objects do not. -/
def pyEqFalse : PyVal → Bool
  | .bool b => !b
  | .int i => i == 0
  | _ => false

/-- `type(result) is str and result != ""`. -/
def pyNonemptyStr : PyVal → Bool
  | .str s => s != ""
  | _ => false

/-- The failure classification of a check result in `_apply_env`
(configureex.py lines 890-893):
`(result == False) or ((type(result) is str) and (result != ""))`. -/
def checkFailed (v : PyVal) : Bool :=
  pyEqFalse v || pyNonemptyStr v

/-- Observable behaviour of calling one check: it returns a value or it
raises an exception. -/
inductive CheckBehavior where
  | returns (v : PyVal)
  | raises
deriving DecidableEq, Repr

/-- The oracle never raises. -/
def NoRaise (res : Nat → CheckBehavior) : Prop :=
  ∀ c, res c ≠ .raises

/-- Python `list.index`, returning `none` where Python raises
`ValueError`. -/
def pyIndex {α : Type} [DecidableEq α] (l : List α) (x : α) : Option Nat :=
  match l with
  | [] => Option.none
  | a :: rest => if a = x then some 0 else (pyIndex rest x).map (· + 1)

/-- `pyIndex` with Python's raise replaced by the list length (one past the
end); used where the source guarantees the element is present. -/
def pyIndexD {α : Type} [DecidableEq α] (l : List α) (x : α) : Nat :=
  (pyIndex l x).getD l.length

/-- The per-session environment bookkeeping of `ConfExEnvironment`:
`self.__applied_tools` and `self.__applied_checks`. -/
structure EnvState where
  appliedTools : List String
  appliedChecks : List Nat
deriving DecidableEq, Repr

/-- `ConfExEnvironment.__reset_environment` (lines 926-934): the current
environment is re-cloned from the base and both bookkeeping lists are
cleared. -/
def resetEnvironment (_st : EnvState) : EnvState :=
  { appliedTools := [], appliedChecks := [] }

/-- The first loop of `_apply_env` for an exact application (lines
806-811): any already-applied tool missing from the desired list forces a
reset. -/
def exactReset (applied tools : List String) : Bool :=
  applied.any (fun t => decide (t ∉ tools))

/-- One step of the index-finding loop of `_apply_env` (lines 814-841).
State: the remaining desired tools, the current index `i`, the running
`expected` (Python int, `-1` meaning unset) and `append`.  Returns
`(reset, append)`. -/
def scanGo (applied : List String) (tlen alen : Nat) :
    List String → Nat → Int → Nat → Bool × Nat
  | [], _, _, app => (false, app)
  | t :: rest, i, exp, app =>
    match pyIndex applied t with
    | some actual =>
      let exp' : Int := if i = 0 ∧ (tlen > 1 ∨ actual + 1 = alen) then actual else exp
      if (actual : Int) = exp' then scanGo applied tlen alen rest (i + 1) (exp' + 1) app
      else (true, app)
    | Option.none =>
      if exp = -1 then scanGo applied tlen alen rest (i + 1) exp 0
      else if exp = (alen : Int) then
        scanGo applied tlen alen rest (i + 1) exp (if app = tlen then i else app)
      else (true, app)

/-- The index-finding loop of `_apply_env`.  Returns `(reset, append)`. -/
def scanTools (applied tools : List String) : Bool × Nat :=
  scanGo applied tools.length applied.length tools 0 (-1) tools.length

/-- The tool-application part of `_apply_env` (lines 790-861): decide
between reset and append, then apply the tools from the computed start
index, recording them in `__applied_tools`. -/
def applyEnvTools (exact : Bool) (st : EnvState) (tools : List String) : EnvState :=
  let r0 := exact && exactReset st.appliedTools tools
  let scanned := if r0 then (true, tools.length) else scanTools st.appliedTools tools
  if scanned.1 then
    let st' := resetEnvironment st
    { st' with appliedTools := st'.appliedTools ++ tools }
  else
    { st with appliedTools := st.appliedTools ++ tools.drop scanned.2 }

/-- The check-running loop of `_apply_env` for one class of checks (lines
877-893).  A check not yet in `__applied_checks` is recorded and run; a
remembered check is run again only when `required`.  A raising check
propagates (`Except.error`).  Returns the updated applied list, the failed
list and the list of checks actually called. -/
def runChecksPhase (res : Nat → CheckBehavior) (required : Bool) :
    List Nat → List Nat → List Nat → List Nat →
    Except Unit (List Nat × List Nat × List Nat)
  | [], applied, failed, executed => .ok (applied, failed, executed)
  | c :: rest, applied, failed, executed =>
    if c ∈ applied then
      if required then
        match res c with
        | .raises => .error ()
        | .returns v =>
          runChecksPhase res required rest applied
            (if checkFailed v then failed ++ [c] else failed) (executed ++ [c])
      else runChecksPhase res required rest applied failed executed
    else
      match res c with
      | .raises => .error ()
      | .returns v =>
        runChecksPhase res required rest (applied ++ [c])
          (if checkFailed v then failed ++ [c] else failed) (executed ++ [c])

/-- `ConfExEnvironment._apply_env` (lines 790-897): apply the desired tool
sequence (exactly, when `exact`), then run the required checks followed by
the optional checks.  Returns the new session state, the failed checks and
the executed checks, or propagates a check's exception. -/
def applyEnv (res : Nat → CheckBehavior) (st : EnvState) (tools : List String)
    (exact : Bool) (req opt : List Nat) :
    Except Unit (EnvState × List Nat × List Nat) :=
  let st1 := applyEnvTools exact st tools
  match runChecksPhase res true req st1.appliedChecks [] [] with
  | .error e => .error e
  | .ok (ap1, f1, e1) =>
    match runChecksPhase res false opt ap1 f1 e1 with
    | .error e => .error e
    | .ok (ap2, f2, e2) => .ok ({ st1 with appliedChecks := ap2 }, f2, e2)

/-- `ConfExSpecification` after construction: an optional ordered candidate
component list, optional check list (check identifiers) and optional
dependency list (the `sid`s of the dependency specifications, standing for
Python object identity).  The constructor guarantees `Components`/`Checks`
/`Dependencies` are `none` or a nonempty tuple; `Name` is display-only and
plays no role in any claim. -/
structure Specification where
  sid : Nat
  Components : Option (List String)
  Checks : Option (List Nat)
  Dependencies : Option (List Nat)
deriving DecidableEq, Repr

/-- The check list of a specification, `[]` when `Checks` is `None`
(Python's `if augment.Specification.Checks:` guard makes the two
equivalent wherever the list is consumed). -/
def checksOf (s : Specification) : List Nat :=
  s.Checks.getD []

/-- The dependency `sid` list of a specification, `[]` for `None`. -/
def depsOf (s : Specification) : List Nat :=
  s.Dependencies.getD []

/-- `ConfExEnvironmentAugment`: the resolver's working record for one
accepted specification.  `aid` models Python object identity (fresh per
object, preserved by nothing but `_clone_augments` field copies, which in
this immutable embedding is the identity). -/
structure Augment where
  aid : Nat
  Specification : Specification
  Tool : Option String
  Component : Option String
  Valid : Bool
deriving DecidableEq, Repr

/-- A freshly constructed augment (`ConfExEnvironmentAugment.__init__`). -/
def mkAugment (aid : Nat) (spec : Specification) : Augment :=
  { aid := aid, Specification := spec, Tool := Option.none,
    Component := Option.none, Valid := false }

/-- The marking loop body of `_validate_augments` (lines 774-783): an
augment becomes valid unless one of the failed checks is among its own
checks. -/
def markAugment (failed : List Nat) (a : Augment) : Augment :=
  { a with Valid := !(failed.any (fun c => decide (c ∈ checksOf a.Specification))) }

/-- The inner scan of the collection loop of `_validate_augments` (lines
752-759): a valid augment is re-examined only when it is a dependency of
some currently-invalid augment. -/
def dependencyAugment (augments : List Augment) (a : Augment) : Bool :=
  augments.any (fun d => !d.Valid && decide (a.Specification.sid ∈ depsOf d.Specification))

/-- The collection loop of `_validate_augments` (lines 750-769): gather
the tools of all invalid augments and of valid dependency augments, the
checks of invalid augments (required) and the checks of valid dependency
augments (optional). -/
def collectValidation (augments : List Augment) : List String × List Nat × List Nat :=
  augments.foldl
    (fun acc a =>
      let dep := a.Valid && dependencyAugment augments a
      if a.Valid && !dep then acc
      else
        let tools := match a.Tool with
          | some t => acc.1 ++ [t]
          | Option.none => acc.1
        if dep then (tools, acc.2.1, acc.2.2 ++ checksOf a.Specification)
        else (tools, acc.2.1 ++ checksOf a.Specification, acc.2.2))
    ([], [], [])

/-- `ConfExEnvironment._validate_augments` (lines 742-788): apply the
collected tools and run the collected checks (non-exact application),
then mark every augment's validity from the failed checks and return the
invalid ones. -/
def validateAugments (res : Nat → CheckBehavior) (env : EnvState)
    (augments : List Augment) :
    Except Unit (EnvState × List Augment × List Augment) :=
  let c := collectValidation augments
  match applyEnv res env c.1 false c.2.1 c.2.2 with
  | .error e => .error e
  | .ok (env', failed, _executed) =>
    let augs' := augments.map (markAugment failed)
    .ok (env', augs', augs'.filter (fun a => !a.Valid))

/-- The shared shape of the candidate walks of `__set_component_local`
(lines 908-924) and the inner loop of `ConfExCache.GetTool` (lines
1055-1071): walk the candidate slice, counting down the probe offset on
each hit, returning the first hit once the offset is spent.  Backward
walks are passed the reversed slice.  Returns the hit (if any) and the
remaining offset (Python mutates the shared one-cell offset list). -/
def walkCandidates (hit : String → Bool) :
    List String → Int → Option String × Int
  | [], off => (Option.none, off)
  | c :: rest, off =>
    if hit c then
      if off < 0 then walkCandidates hit rest (off + 1)
      else if off > 0 then walkCandidates hit rest (off - 1)
      else (some c, off)
    else walkCandidates hit rest off

/-- `ConfExEnvironment.__set_component_local` (lines 899-924): walk the
candidate components from the reference component (inclusive) in the
direction of the offset, matching keys of the base environment. -/
def setComponentLocal (base components : List String) (ref : Option String)
    (off : Int) : Option String × Int :=
  let idx := match ref with
    | some r => pyIndexD components r
    | Option.none => 0
  if off ≥ 0 then walkCandidates (fun c => decide (c ∈ base)) (components.drop idx) off
  else walkCandidates (fun c => decide (c ∈ base)) ((components.take (idx + 1)).reverse) off

/-- The component names supplied by a tool according to the cache. -/
def cacheKeys (compOf : String → List (String × Bool)) (t : String) : List String :=
  (compOf t).map Prod.fst

/-- The outer tool loop of `ConfExCache.GetTool` (lines 1042-1078): try
each tool's candidate walk, restarting the candidate slice from the
appropriate end after the first tool.  `resetCs` is the full candidate
list (reversed for backward walks). -/
def getToolGo (compOf : String → List (String × Bool)) (resetCs : List String) :
    List String → List String → Int → Option (String × String) × Int
  | [], _, off => (Option.none, off)
  | t :: ts, cs, off =>
    match walkCandidates (fun c => decide (c ∈ cacheKeys compOf t)) cs off with
    | (some c, off') => (some (c, t), off')
    | (Option.none, off') => getToolGo compOf resetCs ts resetCs off'

/-- `ConfExCache.GetTool` (lines 1027-1080): bidirectional scan over
`(tool, component)` pairs starting from the reference pair, skipping
`|offset|` matches.  The cache is modelled post-discovery (see the header
comment), so the `AddTool` branch for an unknown tool never fires. -/
def GetTool (compOf : String → List (String × Bool)) (ctools : List String)
    (components : List String) (refC : Option String) (refT : Option String)
    (off : Int) : Option (String × String) × Int :=
  if ctools = [] then (Option.none, off)
  else
    let cidx := match refC with
      | some r => pyIndexD components r
      | Option.none => 0
    let tidx := match refT with
      | some r => pyIndexD ctools r
      | Option.none => 0
    if off ≥ 0 then
      getToolGo compOf components (ctools.drop tidx) (components.drop cidx) off
    else
      getToolGo compOf components.reverse ((ctools.take (tidx + 1)).reverse)
        ((components.take (cidx + 1)).reverse) off

/-- `ConfExEnvironment._set_component` (lines 629-682): resolve an
augment's component from the available sources (`LOCAL` then `TOOL` for a
forward probe, `TOOL` then `LOCAL` for a backward probe, starting at the
source of the augment's current assignment), threading the shared probe
offset through the phases.  On success the augment's `Component`, `Tool`
and `Valid` fields are set; on failure the augment is unchanged (`none`).
A specification with `Components = none` never reaches this method on the
success paths of the resolver; the embedding reports no component for
it (the source would raise on `len(None)`). -/
def setComponent (base : List String) (compOf : String → List (String × Bool))
    (ctools : List String) (a : Augment) (off0 : Int) : Option Augment :=
  match a.Specification.Components with
  | Option.none => Option.none
  | some components =>
    if off0 ≥ 0 then
      match a.Tool with
      | Option.none =>
        -- sources LOCAL, TOOL starting at LOCAL
        match setComponentLocal base components a.Component off0 with
        | (some c, _) =>
          some { a with Component := some c, Tool := Option.none, Valid := false }
        | (Option.none, off1) =>
          -- ref_component := components[0]
          match GetTool compOf ctools components components.head? Option.none off1 with
          | (some ct, _) =>
            some { a with Component := some ct.1, Tool := some ct.2, Valid := false }
          | (Option.none, _) => Option.none
      | some _ =>
        -- sources LOCAL, TOOL starting at TOOL
        match GetTool compOf ctools components a.Component a.Tool off0 with
        | (some ct, _) =>
          some { a with Component := some ct.1, Tool := some ct.2, Valid := false }
        | (Option.none, _) => Option.none
    else
      match a.Tool with
      | some _ =>
        -- sources TOOL, LOCAL starting at TOOL
        match GetTool compOf ctools components a.Component a.Tool off0 with
        | (some ct, _) =>
          some { a with Component := some ct.1, Tool := some ct.2, Valid := false }
        | (Option.none, off1) =>
          -- ref_component := components[len(components) - 1]
          match setComponentLocal base components components.getLast? off1 with
          | (some c, _) =>
            some { a with Component := some c, Tool := Option.none, Valid := false }
          | (Option.none, _) => Option.none
      | Option.none =>
        -- sources TOOL, LOCAL starting at LOCAL
        match setComponentLocal base components a.Component off0 with
        | (some c, _) =>
          some { a with Component := some c, Tool := Option.none, Valid := false }
        | (Option.none, _) => Option.none

/-- Python `list.insert`: insert at the index, clamping past the end. -/
def insertAt {α : Type} : Nat → α → List α → List α
  | 0, a, l => a :: l
  | _ + 1, a, [] => [a]
  | n + 1, a, b :: l => b :: insertAt n a l

/-- Whether `a`'s tool supplies the component of `b`, per the cache:
`ordered[i].Component in self._cache.Components[augment.Tool]`. -/
def toolSupplies (compOf : String → List (String × Bool))
    (t : Option String) (c : Option String) : Bool :=
  match t, c with
  | some t, some c => decide (c ∈ cacheKeys compOf t)
  | _, _ => false

/-- The position scan of `_order_augments` for one augment against the
already-ordered list (lines 697-730): find the insertion index, raising
an incompatibility when the augment would need to sit both before and
after another.  State: index, insertion index, whether the augment's tool
was already seen, the overlap witness. -/
def orderScanGo (compOf : String → List (String × Bool)) (a : Augment) :
    List Augment → Nat → Nat → Bool → Option Augment →
    Except (Augment × Augment) Nat
  | [], _, active, _, _ => .ok active
  | b :: rest, i, active, tp, ov =>
    if a.Tool.isSome && (a.Tool == b.Tool) then
      if tp then orderScanGo compOf a rest (i + 1) active tp ov
      else orderScanGo compOf a rest (i + 1) i true ov
    else
      let ov' := if toolSupplies compOf a.Tool b.Component then some b else ov
      if toolSupplies compOf b.Tool a.Component then
        if ov'.isSome || tp then .error (a, b)
        else orderScanGo compOf a rest (i + 1) (i + 1) tp ov'
      else orderScanGo compOf a rest (i + 1) active tp ov'

/-- The initial overlap witness of the scan (lines 699-704): the augment
itself, when its own component is flagged `no_overlap` in the cache.  The
source indexes `Components[Tool][Component]` only for an augment whose
tool is set, in which case its component is set as well (both are
assigned together by `_set_component`). -/
def orderScanPos (compOf : String → List (String × Bool)) (a : Augment)
    (ordered : List Augment) : Except (Augment × Augment) Nat :=
  let ov0 : Option Augment :=
    match a.Tool, a.Component with
    | some t, some c => if (((compOf t).lookup c).getD false) then some a else Option.none
    | _, _ => Option.none
  orderScanGo compOf a ordered 0 0 false ov0

/-- The insertion fold of `_order_augments` over the reversed augment
list. -/
def orderGo (compOf : String → List (String × Bool)) :
    List Augment → List Augment → Except (Augment × Augment) (List Augment)
  | [], ordered => .ok ordered
  | a :: rest, ordered =>
    match orderScanPos compOf a ordered with
    | .error p => .error p
    | .ok idx => orderGo compOf rest (insertAt idx a ordered)

/-- `ConfExEnvironment._order_augments` (lines 684-740): reverse the list
in place, insert each augment at its computed position; on success the
list becomes the ordered one, on an incompatibility the list is left
reversed and the conflicting pair is returned. -/
def orderAugments (compOf : String → List (String × Bool))
    (augments : List Augment) : List Augment × Option (Augment × Augment) :=
  match orderGo compOf augments.reverse [] with
  | .ok ordered => (ordered, Option.none)
  | .error p => (augments.reverse, some p)

/-- The resolver's committed state: the environment session plus
`self._augments`. -/
structure ResolverState where
  env : EnvState
  augments : List Augment
deriving DecidableEq, Repr

/-- `ConfExEnvironment.__init__`: empty bookkeeping, no augments. -/
def initialState : ResolverState :=
  { env := { appliedTools := [], appliedChecks := [] }, augments := [] }

/-- A fresh augment identity, distinct from all identities in the list. -/
def freshAid (l : List Augment) : Nat :=
  l.foldr (fun a m => Nat.max (a.aid + 1) m) 0

/-- Replace the augment carrying the given identity (Python mutates the
object in place; the lists hold references). -/
def updAug (l : List Augment) (a : Augment) : List Augment :=
  l.map (fun x => if x.aid = a.aid then a else x)

/-- Look an augment up by identity. -/
def findAug (l : List Augment) (aid : Nat) : Option Augment :=
  l.find? (fun x => x.aid = aid)

/-- The change-delta accumulation of `AddAugment` (lines 493-508): add the
offset for an augment, dropping entries that cancel to zero.  The two
Python lists `change_delta[0]`/`change_delta[1]` are kept as one list of
pairs. -/
def deltaAdd : List (Nat × Int) → Nat → Int → List (Nat × Int)
  | [], aid, off => [(aid, off)]
  | (x, v) :: rest, aid, off =>
    if x = aid then
      if v + off = 0 then rest else (x, v + off) :: rest
    else (x, v) :: deltaAdd rest aid off

/-- Fold one change list into the delta with a fixed offset sign. -/
def deltaFold (d : List (Nat × Int)) (change : List Nat) (off : Int) :
    List (Nat × Int) :=
  change.foldl (fun d aid => deltaAdd d aid off) d

/-- The delta application loop of `AddAugment` (lines 511-517): probe each
delta entry's augment in turn; on the first failure return the updated
augments and the successfully processed entries (Python's
`change_delta[:i]`), for the change-adjustment path. -/
def applyDelta (base : List String) (compOf : String → List (String × Bool))
    (ctools : List String) :
    List Augment → List (Nat × Int) → List (Nat × Int) →
    List Augment × Option (List (Nat × Int))
  | augs, [], _ => (augs, Option.none)
  | augs, (aid, off) :: rest, processed =>
    match findAug augs aid with
    | Option.none => (augs, some processed)
    | some a =>
      match setComponent base compOf ctools a off with
      | Option.none => (augs, some processed)
      | some a' =>
        applyDelta base compOf ctools (updAug augs a') rest (processed ++ [(aid, off)])

/-- The change rebuild after a failed probe (lines 519-529): start from the
previous change and replay only the processed delta entries. -/
def adjustChange (lastChange : List Nat) (processed : List (Nat × Int)) :
    List Nat :=
  processed.foldl
    (fun ch p =>
      if p.2 > 0 then ch ++ List.replicate p.2.toNat p.1
      else (List.range p.2.natAbs).foldl (fun c _ => c.erase p.1) ch)
    lastChange

/-- Stage one of a retry iteration of `AddAugment` (lines 484-529): when
the iteration was not entered through `do_loop`, pop the top change list,
compute and apply the delta against the previous change, and on a failed
probe rebuild the change list (`Sum.inr` requests an immediate
`continue`); otherwise hand the augments on to ordering and validation
(`Sum.inl`). -/
def addLoopStage1 (base : List String)
    (compOf : String → List (String × Bool)) (ctools : List String)
    (augs : List Augment) (change : List Nat) (changes : List (List Nat))
    (doLoop : Bool) :
    (List Augment × List Nat × List (List Nat)) ⊕
      (List Augment × List Nat × List (List Nat)) :=
  if doLoop then .inl (augs, change, changes)
  else
    match changes with
    | [] => .inl (augs, change, changes)
    | popped :: rest =>
      let delta := deltaFold (deltaFold [] popped 1) change (-1)
      match applyDelta base compOf ctools augs delta [] with
      | (augs', some processed) =>
        .inr (augs', adjustChange change processed, rest)
      | (augs', Option.none) => .inl (augs', popped, rest)

/-- The retry loop of `AddAugment` (lines 481-545), one recursive call per
`while` iteration; `fuel` bounds the number of iterations and `none`
means the bound was hit before the source loop exited (no terminating
run of the source is modelled by `none`).  The change stack keeps its top
at the head (Python appends and pops at the end).  `orig` is the committed
`self._augments`, returned unchanged on the failure exit. -/
def addLoop (res : Nat → CheckBehavior) (base : List String)
    (compOf : String → List (String × Bool)) (ctools : List String)
    (orig : List Augment) :
    Nat → List Augment → EnvState → List Nat → List (List Nat) → Bool →
    Option (Except Unit (Bool × ResolverState))
  | 0, _, _, _, _, _ => Option.none
  | fuel + 1, augs, env, change, changes, doLoop =>
    if changes = [] ∧ doLoop = false then
      some (.ok (false, { env := env, augments := orig }))
    else
      match addLoopStage1 base compOf ctools augs change changes doLoop with
      | .inr s =>
        addLoop res base compOf ctools orig fuel s.1 env s.2.1 s.2.2 false
      | .inl s =>
        let ordered := orderAugments compOf s.1
        match ordered.2 with
        | some pq =>
          addLoop res base compOf ctools orig fuel ordered.1 env s.2.1
            ((s.2.1 ++ [pq.2.aid]) :: (s.2.1 ++ [pq.1.aid]) :: s.2.2) false
        | Option.none =>
          match validateAugments res env ordered.1 with
          | .error e => some (.error e)
          | .ok (env', augsV, invalid) =>
            if invalid = [] then
              some (.ok (true, { env := env', augments := augsV }))
            else
              addLoop res base compOf ctools orig fuel augsV env' s.2.1
                ((invalid.map (fun a => s.2.1 ++ [a.aid])).reverse ++ s.2.2) false

/-- `ConfExEnvironment.AddAugment` (lines 451-551): clone the committed
augments, append the new augment; a pure check/dependency specification is
validated directly, otherwise the component is resolved and the
order/validate/retry loop runs.  Only a successful exit replaces the
committed list.  (`ENVPre` handling touches only environment values,
outside this model.) -/
def AddAugment (res : Nat → CheckBehavior) (base : List String)
    (compOf : String → List (String × Bool)) (ctools : List String)
    (fuel : Nat) (st : ResolverState) (spec : Specification) :
    Option (Except Unit (Bool × ResolverState)) :=
  let augment := mkAugment (freshAid st.augments) spec
  let augs := st.augments ++ [augment]
  match spec.Components with
  | Option.none =>
    match validateAugments res st.env augs with
    | .error e => some (.error e)
    | .ok (env', augsV, invalid) =>
      if invalid = [] then some (.ok (true, { env := env', augments := augsV }))
      else some (.ok (false, { env := env', augments := st.augments }))
  | some _ =>
    match setComponent base compOf ctools augment 0 with
    | Option.none => some (.ok (false, st))
    | some augment' =>
      addLoop res base compOf ctools st.augments fuel (updAug augs augment')
        st.env [] [] true

/-- The tools collected by `Finalize` (lines 600-604): every committed
augment's tool, in order. -/
def finalTools (augments : List Augment) : List String :=
  augments.foldl
    (fun acc a => match a.Tool with
      | some t => acc ++ [t]
      | Option.none => acc)
    []

/-- The checks collected by `Finalize` (lines 600-604): every committed
augment's checks, in order. -/
def finalChecks (augments : List Augment) : List Nat :=
  augments.foldl (fun acc a => acc ++ checksOf a.Specification) []

/-- `ConfExEnvironment.Finalize` (lines 593-615): one exact application of
all committed tools, with all committed checks passed as the optional
check list of `_apply_env` (the required list is `None`). -/
def Finalize (res : Nat → CheckBehavior) (st : ResolverState) :
    Except Unit (EnvState × List Nat × List Nat) :=
  applyEnv res st.env (finalTools st.augments) true [] (finalChecks st.augments)

/-- The caller-facing error family (`ConfExError`). -/
inductive ConfExErrorKind where
  | ToolNotFound (name : String)
  | LibraryNotFound (name : String)
  | ProgramNotFound (name : String)
  | RequirementNotMet (name : String)
deriving DecidableEq, Repr

/-- `ConfExBase.FindComponent` composed with `ConfExBase.__find` (lines
1200-1211, 1283-1291): a failed `AddAugment` surfaces as a raised
`ConfExError("ToolNotFound", name)`. -/
def FindComponent (res : Nat → CheckBehavior) (base : List String)
    (compOf : String → List (String × Bool)) (ctools : List String)
    (fuel : Nat) (st : ResolverState) (name : String) (spec : Specification) :
    Option (Except Unit (Except ConfExErrorKind (Specification × ResolverState))) :=
  match AddAugment res base compOf ctools fuel st spec with
  | Option.none => Option.none
  | some (.error e) => some (.error e)
  | some (.ok (true, st')) => some (.ok (.ok (spec, st')))
  | some (.ok (false, _)) => some (.ok (.error (.ToolNotFound name)))

/-! ## Check-loop lemmas -/

/-- The failure classification applied to a check's behaviour (a raising
check never reaches the classification). -/
def checkFailedB (b : CheckBehavior) : Bool :=
  match b with
  | .returns v => checkFailed v
  | .raises => false

/-- A concrete oracle whose every check passes. -/
def alwaysPass : Nat → CheckBehavior := fun _ => .returns (.bool true)

/-- A concrete oracle whose every check raises. -/
def alwaysRaise : Nat → CheckBehavior := fun _ => .raises

/-- A concrete oracle where exactly check `0` fails (all others pass). -/
def failZero : Nat → CheckBehavior := fun c =>
  if c = 0 then .returns (.bool false) else .returns (.bool true)

theorem exists_returns_of_noRaise {res : Nat → CheckBehavior}
    (hnr : NoRaise res) (c : Nat) : ∃ v, res c = .returns v := by
  cases h : res c
  · exact ⟨_, rfl⟩
  · exact absurd h (hnr c)
/-- The sublist of `checks` that a pass started with memory `applied`
actually records as new: scanning left to right, a check not yet
remembered is kept and remembered. -/
def newOnes (applied : List Nat) : List Nat → List Nat
  | [] => []
  | c :: rest =>
    if c ∈ applied then newOnes applied rest
    else c :: newOnes (applied ++ [c]) rest

theorem mem_newOnes : ∀ (checks applied : List Nat) (c : Nat),
    c ∈ newOnes applied checks ↔ c ∈ checks ∧ c ∉ applied := by
  intro checks
  induction checks with
  | nil => intro applied c; simp [newOnes]
  | cons c0 rest ih =>
    intro applied c
    by_cases hc : c0 ∈ applied
    · rw [newOnes, if_pos hc, ih]
      by_cases hcc : c = c0
      · subst hcc; simp [hc]
      · simp [hcc]
    · rw [newOnes, if_neg hc]
      by_cases hcc : c = c0
      · subst hcc; simp [hc]
      · simp only [List.mem_cons, ih, List.mem_append, List.mem_singleton]
        simp [hcc]

/-- A required pass executes every check in the list, records the new
ones, and fails exactly the failing ones. -/
theorem runChecksPhase_true_eq (res : Nat → CheckBehavior) (hnr : NoRaise res) :
    ∀ (checks applied failed executed : List Nat),
      runChecksPhase res true checks applied failed executed =
        .ok (applied ++ newOnes applied checks,
             failed ++ checks.filter (fun c => checkFailedB (res c)),
             executed ++ checks) := by
  intro checks
  induction checks with
  | nil => intro applied failed executed; simp [runChecksPhase, newOnes]
  | cons c0 rest ih =>
    intro applied failed executed
    obtain ⟨v, hv⟩ := exists_returns_of_noRaise hnr c0
    have hb : checkFailedB (res c0) = checkFailed v := by rw [hv]; rfl
    by_cases hc : c0 ∈ applied
    · rw [runChecksPhase, if_pos hc, if_pos rfl, hv]
      dsimp only
      by_cases hfail : checkFailed v
      · rw [if_pos hfail, ih, newOnes, if_pos hc]
        simp [List.filter_cons, hb, hfail]
      · rw [if_neg hfail, ih, newOnes, if_pos hc]
        simp [List.filter_cons, hb, hfail]
    · rw [runChecksPhase, if_neg hc, hv]
      dsimp only
      by_cases hfail : checkFailed v
      · rw [if_pos hfail, ih, newOnes, if_neg hc]
        simp [List.filter_cons, hb, hfail]
      · rw [if_neg hfail, ih, newOnes, if_neg hc]
        simp [List.filter_cons, hb, hfail]

/-- An optional pass executes exactly the checks not yet remembered. -/
theorem runChecksPhase_false_eq (res : Nat → CheckBehavior) (hnr : NoRaise res) :
    ∀ (checks applied failed executed : List Nat),
      runChecksPhase res false checks applied failed executed =
        .ok (applied ++ newOnes applied checks,
             failed ++ (newOnes applied checks).filter (fun c => checkFailedB (res c)),
             executed ++ newOnes applied checks) := by
  intro checks
  induction checks with
  | nil => intro applied failed executed; simp [runChecksPhase, newOnes]
  | cons c0 rest ih =>
    intro applied failed executed
    obtain ⟨v, hv⟩ := exists_returns_of_noRaise hnr c0
    have hb : checkFailedB (res c0) = checkFailed v := by rw [hv]; rfl
    by_cases hc : c0 ∈ applied
    · rw [runChecksPhase, if_pos hc, if_neg (by simp : ¬ (false = true)), ih]
      rw [newOnes, if_pos hc]
    · rw [runChecksPhase, if_neg hc, hv]
      dsimp only
      by_cases hfail : checkFailed v
      · rw [if_pos hfail, ih, newOnes, if_neg hc]
        simp [List.filter_cons, hb, hfail]
      · rw [if_neg hfail, ih, newOnes, if_neg hc]
        simp [List.filter_cons, hb, hfail]
/-- A required pass containing a raising check propagates the exception:
every required check is called until one raises. -/
theorem runChecksPhase_raises (res : Nat → CheckBehavior) :
    ∀ (req applied failed executed : List Nat) (c : Nat), c ∈ req →
      res c = .raises →
      ∃ e, runChecksPhase res true req applied failed executed = .error e := by
  intro req
  induction req with
  | nil => intro _ _ _ c hc; cases hc
  | cons c0 rest ih =>
    intro applied failed executed c hc hr
    cases hres : res c0 with
    | raises =>
      by_cases hmem : c0 ∈ applied
      · exact ⟨(), by rw [runChecksPhase, if_pos hmem, if_pos rfl, hres]⟩
      · exact ⟨(), by rw [runChecksPhase, if_neg hmem, hres]⟩
    | returns v =>
      have hcr : c ∈ rest := by
        rcases List.mem_cons.mp hc with h | h
        · subst h; rw [hres] at hr; cases hr
        · exact h
      by_cases hmem : c0 ∈ applied
      · rw [runChecksPhase, if_pos hmem, if_pos rfl, hres]
        dsimp only
        exact ih applied _ _ c hcr hr
      · rw [runChecksPhase, if_neg hmem, hres]
        dsimp only
        exact ih (applied ++ [c0]) _ _ c hcr hr

/-! ## Claim C1 -/

/-- A concrete invalid augment carrying check `0`. -/
def cexAug : Augment :=
  { aid := 0,
    Specification :=
      { sid := 0, Components := Option.none, Checks := some [0],
        Dependencies := Option.none },
    Tool := Option.none, Component := Option.none, Valid := false }

/-- C1 counterexample: the claim says an exception raised by a check is
caught inside the validation step and never propagated; here a raising
check makes `_validate_augments` itself propagate the exception. -/
theorem c1_counterexample :
    validateAugments alwaysRaise { appliedTools := [], appliedChecks := [] }
      [cexAug] = .error () := by
  rfl

/-- C1 (amended): an exception raised by an executed check is not caught
by `_apply_env` or `_validate_augments`: it propagates to their caller
(so it is never recorded as a mere validation failure).  Stated for a
raising check in the required list of `_apply_env` and in the required
checks collected by `_validate_augments`. -/
theorem c1_amended :
    (∀ (res : Nat → CheckBehavior) (st : EnvState) (tools : List String)
        (exact : Bool) (req opt : List Nat) (c : Nat),
        c ∈ req → res c = .raises →
        ∃ e, applyEnv res st tools exact req opt = .error e) ∧
    (∀ (res : Nat → CheckBehavior) (env : EnvState) (augments : List Augment)
        (c : Nat),
        c ∈ (collectValidation augments).2.1 → res c = .raises →
        ∃ e, validateAugments res env augments = .error e) := by
  constructor
  · intro res st tools exact req opt c hc hr
    obtain ⟨e, he⟩ :=
      runChecksPhase_raises res req (applyEnvTools exact st tools).appliedChecks
        [] [] c hc hr
    exact ⟨e, by simp only [applyEnv, he]⟩
  · intro res env augments c hc hr
    obtain ⟨e, he⟩ :=
      runChecksPhase_raises res (collectValidation augments).2.1
        ((applyEnvTools false env (collectValidation augments).1).appliedChecks)
        [] [] c hc hr
    refine ⟨e, ?_⟩
    simp only [validateAugments, applyEnv, he]

/-- C1 amended witness: the amended statement applied at a concrete
session. -/
theorem c1_amended_witness :
    (∃ e, applyEnv alwaysRaise { appliedTools := [], appliedChecks := [] }
      [] false [0] [] = .error e) ∧
    (∃ e, validateAugments alwaysRaise { appliedTools := [], appliedChecks := [] }
      [cexAug] = .error e) :=
  ⟨c1_amended.1 alwaysRaise _ [] false [0] [] 0 (by simp) rfl,
   c1_amended.2 alwaysRaise _ [cexAug] 0 (by decide) rfl⟩

/-! ## Claim C2 -/

/-- C2 counterexample: check `0` is executed and passes as a required
check of a first validation pass (so it is remembered); a later pass in
which it is again required executes it again, although it was not
previously optional.  The claim allows a re-run only for a previously
optional check. -/
theorem c2_counterexample :
    applyEnv alwaysPass { appliedTools := [], appliedChecks := [] }
        [] false [0] [] =
      .ok ({ appliedTools := [], appliedChecks := [0] }, [], [0]) ∧
    applyEnv alwaysPass { appliedTools := [], appliedChecks := [0] }
        [] false [0] [] =
      .ok ({ appliedTools := [], appliedChecks := [0] }, [], [0]) := by
  constructor <;> rfl

/-- C2 (amended): a validation pass executes exactly every required check
plus every optional check that is not already remembered (and not
required in the same pass); in particular a remembered check — however it
was previously run — is re-executed whenever it is required now, and is
skipped exactly when it is optional now. -/
theorem c2_amended (res : Nat → CheckBehavior) (hnr : NoRaise res)
    (st : EnvState) (tools : List String) (req opt : List Nat)
    (st' : EnvState) (failed executed : List Nat)
    (h : applyEnv res st tools false req opt = .ok (st', failed, executed)) :
    ∀ c, c ∈ executed ↔ c ∈ req ∨
      (c ∈ opt ∧ c ∉ (applyEnvTools false st tools).appliedChecks ∧ c ∉ req) := by
  simp only [applyEnv, runChecksPhase_true_eq res hnr,
    runChecksPhase_false_eq res hnr, List.nil_append, Except.ok.injEq,
    Prod.mk.injEq] at h
  obtain ⟨-, -, hex⟩ := h
  subst hex
  intro c
  simp only [List.mem_append, mem_newOnes]
  constructor
  · rintro (h1 | ⟨h1, h2⟩)
    · exact Or.inl h1
    · by_cases hcr : c ∈ req
      · exact Or.inl hcr
      · refine Or.inr ⟨h1, fun hx => h2 (Or.inl hx), hcr⟩
  · rintro (h1 | ⟨h1, h2, h3⟩)
    · exact Or.inl h1
    · refine Or.inr ⟨h1, ?_⟩
      rintro (hx | ⟨hx, -⟩)
      · exact h2 hx
      · exact h3 hx

/-- C2 amended witness: a remembered passed check is executed again when
required (first conjunct of the disjunction), and skipped when optional. -/
theorem c2_amended_witness :
    (0 ∈ ([0] : List Nat) ∨
      (0 ∈ ([] : List Nat) ∧ 0 ∉ ([0] : List Nat) ∧ 0 ∉ ([0] : List Nat))) ∧
    ¬ (1 ∈ ([] : List Nat) ∨
      (1 ∈ ([1] : List Nat) ∧ 1 ∉ ([1] : List Nat) ∧ 1 ∉ ([] : List Nat))) := by
  constructor
  · exact (c2_amended alwaysPass (fun c => by simp [alwaysPass])
      { appliedTools := [], appliedChecks := [0] } [] [0] []
      { appliedTools := [], appliedChecks := [0] } [] [0] (by rfl) 0).mp
      (by simp)
  · intro hmem
    have h := (c2_amended alwaysPass (fun c => by simp [alwaysPass])
      { appliedTools := [], appliedChecks := [1] } [] [] [1]
      { appliedTools := [], appliedChecks := [1] } [] [] (by rfl) 1).mpr hmem
    simp at h

theorem noRaise_alwaysPass : NoRaise alwaysPass := by
  intro c; simp [alwaysPass]

theorem noRaise_failZero : NoRaise failZero := by
  intro c; unfold failZero; split <;> simp

/-! ## Claim C10 -/

/-- C10: an executed check is classified as failed exactly when its
return value compares equal to `False` (Python `==`, so `False` itself
and numeric zero) or is a non-empty string; in particular a check
returning `None` or any other object is classified as passed. -/
theorem c10_classification (res : Nat → CheckBehavior) (hnr : NoRaise res)
    (st : EnvState) (tools : List String) (exact : Bool) (req opt : List Nat)
    (st' : EnvState) (failed executed : List Nat)
    (h : applyEnv res st tools exact req opt = .ok (st', failed, executed)) :
    (∀ c, c ∈ failed ↔ c ∈ executed ∧ checkFailedB (res c) = true) ∧
    (∀ v, checkFailedB (.returns v) = true ↔
      (pyEqFalse v = true ∨ pyNonemptyStr v = true)) ∧
    checkFailedB (.returns PyVal.none) = false ∧
    checkFailedB (.returns PyVal.other) = false := by
  refine ⟨?_, ?_, rfl, rfl⟩
  · simp only [applyEnv, runChecksPhase_true_eq res hnr,
      runChecksPhase_false_eq res hnr, List.nil_append, Except.ok.injEq,
      Prod.mk.injEq] at h
    obtain ⟨-, hf, hex⟩ := h
    subst hf; subst hex
    intro c
    simp only [List.mem_append, List.mem_filter]
    tauto
  · intro v
    simp [checkFailedB, checkFailed]

/-- C10 witness: the classification applied at a concrete pass in which
check `0` fails and check `1` passes. -/
theorem c10_witness :
    0 ∈ ([0] : List Nat) ↔ 0 ∈ ([0, 1] : List Nat) ∧
      checkFailedB (failZero 0) = true :=
  (c10_classification failZero noRaise_failZero
    { appliedTools := [], appliedChecks := [] } [] false [0, 1] []
    { appliedTools := [], appliedChecks := [0, 1] } [0] [0, 1] (by rfl)).1 0

/-! ## Claim C3 -/

/-- A concrete valid augment (check `1`) whose specification depends on
`cexAug`'s specification. -/
def depAug : Augment :=
  { aid := 1,
    Specification :=
      { sid := 1, Components := Option.none, Checks := some [1],
        Dependencies := some [0] },
    Tool := Option.none, Component := Option.none, Valid := true }

/-- C3 counterexample: `depAug`'s specification depends on `cexAug`'s;
`cexAug` is invalid and its check `0` fails during re-validation, yet the
dependent `depAug` ends the pass with `Valid = true` — the claim requires
both to end invalid. -/
theorem c3_counterexample :
    validateAugments failZero { appliedTools := [], appliedChecks := [] }
        [cexAug, depAug] =
      .ok ({ appliedTools := [], appliedChecks := [0] },
        [{ cexAug with Valid := false }, { depAug with Valid := true }],
        [{ cexAug with Valid := false }]) ∧
    depAug.Specification.Dependencies = some [cexAug.Specification.sid] := by
  constructor <;> rfl

/-- C3 (amended): re-validation marks an augment invalid exactly when one
of its own checks failed; invalidity does not propagate along dependency
edges (a dependency's checks are merely re-run), and every augment none of
whose checks failed — dependent or unrelated — ends the pass with
`valid = true`. -/
theorem c3_amended (res : Nat → CheckBehavior)
    (env : EnvState) (augments : List Augment) (env' : EnvState)
    (augs' invalid : List Augment)
    (h : validateAugments res env augments = .ok (env', augs', invalid)) :
    ∃ failed : List Nat,
      augs' = augments.map (markAugment failed) ∧
      invalid = augs'.filter (fun a => !a.Valid) ∧
      ∀ a : Augment, ((markAugment failed a).Valid = false ↔
        ∃ c ∈ failed, c ∈ checksOf a.Specification) := by
  simp only [validateAugments] at h
  cases happ : applyEnv res env (collectValidation augments).1 false
      (collectValidation augments).2.1 (collectValidation augments).2.2 with
  | error e => rw [happ] at h; cases h
  | ok out =>
    rw [happ] at h
    obtain ⟨env0, failed, executed⟩ := out
    simp only [Except.ok.injEq, Prod.mk.injEq] at h
    obtain ⟨-, h2, h3⟩ := h
    refine ⟨failed, h2.symm, by rw [← h2, ← h3], ?_⟩
    intro a
    simp [markAugment]

/-- C3 amended witness: the amended statement applied at the concrete
counterexample session. -/
theorem c3_amended_witness :
    ∃ failed : List Nat,
      [{ cexAug with Valid := false }, { depAug with Valid := true }] =
        [cexAug, depAug].map (markAugment failed) ∧
      [{ cexAug with Valid := false }] =
        ([{ cexAug with Valid := false },
          { depAug with Valid := true }] : List Augment).filter
          (fun a => !a.Valid) ∧
      ∀ a : Augment, ((markAugment failed a).Valid = false ↔
        ∃ c ∈ failed, c ∈ checksOf a.Specification) :=
  c3_amended failZero { appliedTools := [], appliedChecks := [] }
    [cexAug, depAug] { appliedTools := [], appliedChecks := [0] }
    [{ cexAug with Valid := false }, { depAug with Valid := true }]
    [{ cexAug with Valid := false }] (by rfl)

/-! ## Lemmas about the tool scan of the apply step -/

theorem pyIndex_eq_none {α : Type} [DecidableEq α] :
    ∀ (l : List α) (x : α), pyIndex l x = Option.none ↔ x ∉ l := by
  intro l
  induction l with
  | nil => intro x; simp [pyIndex]
  | cons a rest ih =>
    intro x
    by_cases h : a = x
    · subst h; simp [pyIndex]
    · rw [pyIndex, if_neg h, Option.map_eq_none', ih]
      simp only [List.mem_cons]
      constructor
      · intro hx
        rintro (rfl | hmem)
        · exact h rfl
        · exact hx hmem
      · intro hx hmem
        exact hx (Or.inr hmem)

theorem pyIndex_get {α : Type} [DecidableEq α] :
    ∀ (l : List α), l.Nodup → ∀ (k : Nat) (x : α),
      l.get? k = some x → pyIndex l x = some k := by
  intro l
  induction l with
  | nil => intro _ k x h; simp [List.get?] at h
  | cons a rest ih =>
    intro hnd k x h
    obtain ⟨hna, hndr⟩ := List.nodup_cons.mp hnd
    cases k with
    | zero =>
      simp only [List.get?] at h
      injection h with h
      subst h
      simp [pyIndex]
    | succ k =>
      simp only [List.get?] at h
      have hx : x ∈ rest := List.get?_mem h
      have hax : ¬ (a = x) := fun he => hna (he ▸ hx)
      rw [pyIndex, if_neg hax, ih hndr k x h]
      rfl

theorem drop_cons_facts {α : Type} :
    ∀ (l : List α) (k : Nat) (t : α) (d' : List α),
      l.drop k = t :: d' → l.get? k = some t ∧ l.drop (k + 1) = d' := by
  intro l
  induction l with
  | nil => intro k t d' h; simp [List.drop] at h
  | cons a rest ih =>
    intro k t d' h
    cases k with
    | zero =>
      simp only [List.drop] at h
      injection h with h1 h2
      subst h1; subst h2
      exact ⟨rfl, by simp⟩
    | succ k =>
      simp only [List.drop] at h
      obtain ⟨h1, h2⟩ := ih k t d' h
      exact ⟨h1, h2⟩

/-- Once every already-applied tool has been matched (`expected` equals
the applied length), a run of tools absent from the applied list keeps
the scan reset-free and leaves a stable `append` value. -/
theorem scanGo_tail_stable :
    ∀ (suffix applied : List String) (tlen i app : Nat),
      (∀ t ∈ suffix, t ∉ applied) → app ≠ tlen →
      scanGo applied tlen applied.length suffix i
        (applied.length : Int) app = (false, app) := by
  intro suffix
  induction suffix with
  | nil => intro applied tlen i app _ _; rfl
  | cons t rest ih =>
    intro applied tlen i app hmiss happ
    have hpy : pyIndex applied t = Option.none :=
      (pyIndex_eq_none applied t).mpr (hmiss t (List.mem_cons_self t rest))
    rw [scanGo, hpy]
    rw [if_neg (by omega : ¬ ((applied.length : Int) = -1)), if_pos rfl,
      if_neg happ]
    exact ih applied tlen (i + 1) app
      (fun x hx => hmiss x (List.mem_cons_of_mem t hx)) happ

/-- A scan that has matched nothing yet (`expected = -1`) stays reset-free
over tools absent from the applied list, with `append` pinned to `0`. -/
theorem scanGo_missing_run :
    ∀ (suffix applied : List String) (tlen i app : Nat),
      (∀ t ∈ suffix, t ∉ applied) →
      scanGo applied tlen applied.length suffix i (-1) app =
        (false, if suffix = [] then app else 0) := by
  intro suffix
  induction suffix with
  | nil => intro applied tlen i app _; rfl
  | cons t rest ih =>
    intro applied tlen i app hmiss
    have hpy : pyIndex applied t = Option.none :=
      (pyIndex_eq_none applied t).mpr (hmiss t (List.mem_cons_self t rest))
    rw [scanGo, hpy, if_pos rfl]
    dsimp only
    rw [ih applied tlen (i + 1) 0 (fun x hx => hmiss x (List.mem_cons_of_mem t hx))]
    simp

/-- The found-run of the scan along a duplicate-free applied list: walking
the applied tools from position `k ≥ 1` with `expected = k` matches each
one in place and then hands over to the tail run. -/
theorem scanGo_ext_run :
    ∀ (d applied suffix : List String) (k : Nat),
      applied.Nodup → (∀ t ∈ suffix, t ∉ applied) →
      applied.drop k = d → 0 < k → k ≤ applied.length →
      scanGo applied (applied.length + suffix.length) applied.length
        (d ++ suffix) k (k : Int) (applied.length + suffix.length) =
        (false, if suffix = [] then applied.length + suffix.length
                else applied.length) := by
  intro d
  induction d with
  | nil =>
    intro applied suffix k hnd hmiss hdrop hk hkle
    have hk' : k = applied.length := by
      have := List.drop_eq_nil_iff.mp hdrop
      omega
    subst hk'
    cases suffix with
    | nil => rfl
    | cons t rest =>
      have hpy : pyIndex applied t = Option.none :=
        (pyIndex_eq_none applied t).mpr (hmiss t (List.mem_cons_self t rest))
      rw [List.nil_append, scanGo, hpy]
      rw [if_neg (by omega : ¬ ((applied.length : Int) = -1)), if_pos rfl,
        if_pos rfl]
      rw [scanGo_tail_stable rest applied
        (applied.length + (t :: rest).length) (applied.length + 1)
        applied.length (fun x hx => hmiss x (List.mem_cons_of_mem t hx))
        (by simp)]
      simp
  | cons t d' ih =>
    intro applied suffix k hnd hmiss hdrop hk hkle
    obtain ⟨hget, hdrop'⟩ := drop_cons_facts applied k t d' hdrop
    have hpy : pyIndex applied t = some k := pyIndex_get applied hnd k t hget
    have hklt : k < applied.length := by
      have := congrArg List.length hdrop
      rw [List.length_drop] at this
      simp at this
      omega
    rw [List.cons_append, scanGo, hpy]
    dsimp only
    rw [ite_self, if_pos rfl]
    have hcast : (k : Int) + 1 = ((k + 1 : Nat) : Int) := by push_cast; ring
    rw [hcast]
    exact ih applied suffix (k + 1) hnd hmiss hdrop' (by omega) (by omega)

/-- The scan on an extension of a duplicate-free applied list: no reset,
and the append index points at the start of the fresh suffix. -/
theorem scanTools_ext (applied suffix : List String)
    (hnd : applied.Nodup) (hmiss : ∀ t ∈ suffix, t ∉ applied) :
    scanTools applied (applied ++ suffix) =
      (false, if suffix = [] then (applied ++ suffix).length
              else applied.length) := by
  cases applied with
  | nil =>
    rw [scanTools]
    rw [List.nil_append]
    rw [scanGo_missing_run suffix [] suffix.length 0 suffix.length
      (fun x _ => by simp)]
    simp
  | cons a rest =>
    rw [scanTools, List.length_append]
    have hpy : pyIndex (a :: rest) a = some 0 := by simp [pyIndex]
    rw [List.cons_append, scanGo, hpy]
    dsimp only
    have hcond : (0 = 0 ∧ (((a :: rest).length + suffix.length > 1) ∨
        (0 + 1 = (a :: rest).length))) := by
      refine ⟨rfl, ?_⟩
      cases rest with
      | nil =>
        cases suffix with
        | nil => exact Or.inr rfl
        | cons s ss => exact Or.inl (by simp only [List.length_cons]; omega)
      | cons b bs => exact Or.inl (by simp only [List.length_cons]; omega)
    rw [if_pos hcond]
    rw [if_pos (by norm_num : ((0 : Nat) : Int) = ((0 : Nat) : Int))]
    have h1 : (((0 : Nat) : Int) + 1) = ((1 : Nat) : Int) := by norm_num
    have hrest : (a :: rest).drop 1 = rest := by simp
    rw [h1]
    exact scanGo_ext_run rest (a :: rest) suffix 1 hnd hmiss hrest
      (by omega) (by simp)

/-! ## Claim C4 -/

/-- C4 counterexample, both directions of the claim fail on a reachable
call.  Left: a non-exact apply call whose already-applied provider `X` is
absent from the desired set `[Y]` does not reset: `X` stays applied and
`Y` is stacked on top, so the session is not rebuilt from the base
environment as the claim requires for every call.  Right: over the
duplicated applied list `[X, X]` the desired sequence `[X, X] ++ [Z]` is
an extension by a fresh provider, yet the call does not apply just the
suffix `[Z]` to the current environment: it resets and clears the
remembered check `7`, because the index scan maps the second `X` to the
first occurrence (index 0, not the expected 1). -/
theorem c4_counterexample :
    (applyEnv alwaysPass { appliedTools := ["X"], appliedChecks := [] }
        ["Y"] false [] [] =
      .ok ({ appliedTools := ["X", "Y"], appliedChecks := [] }, [], []) ∧
     (["X", "Y"] : List String) ≠ ["Y"]) ∧
    (applyEnv alwaysPass { appliedTools := ["X", "X"], appliedChecks := [7] }
        (["X", "X"] ++ ["Z"]) false [] [] =
      .ok ({ appliedTools := ["X", "X", "Z"], appliedChecks := [] }, [], []) ∧
     ("Z" : String) ∉ (["X", "X"] : List String)) := by
  exact ⟨⟨rfl, by decide⟩, rfl, by decide⟩

/-- C4 (amended): the behaviour split by the `exact` flag and by the
shape of the applied list.  (1) When the desired sequence extends a
duplicate-free applied sequence by fresh providers only, just the suffix
is applied and the remembered checks survive (no reset), for any call.
(2) Only an exact application resets when an already-applied provider is
absent from the desired set; the reset rebuilds from the base (clearing
the check memory) and applies the full desired sequence.  (3) Over a
duplicated applied list — reachable when a validation pass collects a
shared tool twice — the extension rule fails: extending `[x, x]` by a
fresh provider forces a full reset that clears the check memory, because
the index scan maps the second occurrence back to the first. -/
theorem c4_amended :
    (∀ (exact : Bool) (st : EnvState) (suffix : List String),
      st.appliedTools.Nodup → (∀ t ∈ suffix, t ∉ st.appliedTools) →
      applyEnvTools exact st (st.appliedTools ++ suffix) =
        { appliedTools := st.appliedTools ++ suffix,
          appliedChecks := st.appliedChecks }) ∧
    (∀ (st : EnvState) (tools : List String) (t : String),
      t ∈ st.appliedTools → t ∉ tools →
      applyEnvTools true st tools =
        { appliedTools := tools, appliedChecks := [] }) ∧
    (∀ (x z : String) (checks : List Nat), z ≠ x →
      applyEnvTools false { appliedTools := [x, x], appliedChecks := checks }
          ([x, x] ++ [z]) =
        { appliedTools := [x, x] ++ [z], appliedChecks := [] }) := by
  refine ⟨?_, ?_, ?_⟩
  · intro exact st suffix hnd hmiss
    have hre : exactReset st.appliedTools (st.appliedTools ++ suffix) = false := by
      rw [exactReset]
      rw [List.any_eq_false]
      intro t ht
      simp only [decide_eq_true_eq, Decidable.not_not]
      exact List.mem_append_left suffix ht
    rw [applyEnvTools]
    simp only [hre, Bool.and_false, Bool.false_eq_true, if_neg (by simp : ¬ False),
      scanTools_ext st.appliedTools suffix hnd hmiss]
    by_cases hs : suffix = []
    · subst hs
      simp [List.drop_length]
    · rw [if_neg hs]
      rw [List.drop_left]
  · intro st tools t ht htn
    have hre : exactReset st.appliedTools tools = true := by
      rw [exactReset, List.any_eq_true]
      exact ⟨t, ht, by simp [htn]⟩
    rw [applyEnvTools]
    simp only [hre, Bool.and_true, resetEnvironment]
    simp [resetEnvironment]
  · intro x z checks hzx
    rw [applyEnvTools]
    have hscan : scanTools [x, x] [x, x, z] = (true, 3) := by
      rw [scanTools]
      simp only [List.length_cons, List.length_nil]
      rw [scanGo]
      simp [pyIndex, scanGo]
    simp [hscan, resetEnvironment]

/-- C4 amended witness: the amended statement applied to concrete
sessions — an extension by `Z` of duplicate-free applied `[X, Y]` appends
just `Z`, an exact application of `[Z]` over applied `[X]` resets, and an
extension by `Z` of the duplicated applied `[X, X]` resets and clears the
check memory. -/
theorem c4_amended_witness :
    applyEnvTools false { appliedTools := ["X", "Y"], appliedChecks := [3] }
        (["X", "Y"] ++ ["Z"]) =
      { appliedTools := ["X", "Y", "Z"], appliedChecks := [3] } ∧
    applyEnvTools true { appliedTools := ["X"], appliedChecks := [3] } ["Z"] =
      { appliedTools := ["Z"], appliedChecks := [] } ∧
    applyEnvTools false { appliedTools := ["X", "X"], appliedChecks := [7] }
        (["X", "X"] ++ ["Z"]) =
      { appliedTools := ["X", "X", "Z"], appliedChecks := [] } :=
  ⟨c4_amended.1 false { appliedTools := ["X", "Y"], appliedChecks := [3] }
      ["Z"] (by decide) (by decide),
   c4_amended.2.1 { appliedTools := ["X"], appliedChecks := [3] } ["Z"] "X"
      (by decide) (by decide),
   c4_amended.2.2 "X" "Z" [7] (by decide)⟩

/-! ## The exact-application analysis of the tool scan -/

theorem pyIndex_some_get {α : Type} [DecidableEq α] :
    ∀ (l : List α) (x : α) (k : Nat), pyIndex l x = some k →
      l.get? k = some x := by
  intro l
  induction l with
  | nil => intro x k h; simp [pyIndex] at h
  | cons a rest ih =>
    intro x k h
    by_cases hax : a = x
    · subst hax
      rw [pyIndex, if_pos rfl] at h
      injection h with h
      subst h
      rfl
    · rw [pyIndex, if_neg hax] at h
      cases hp : pyIndex rest x with
      | none => rw [hp] at h; simp at h
      | some k' =>
        rw [hp] at h
        simp only [Option.map_some'] at h
        injection h with h
        subst h
        simpa using ih x k' hp

theorem get?_some_lt {α : Type} :
    ∀ (l : List α) (n : Nat) (x : α), l.get? n = some x → n < l.length := by
  intro l
  induction l with
  | nil => intro n x h; simp [List.get?] at h
  | cons a rest ih =>
    intro n x h
    cases n with
    | zero => simp
    | succ n =>
      simp only [List.get?] at h
      have := ih n x h
      simp only [List.length_cons]
      omega

theorem pyIndex_lt_length {α : Type} [DecidableEq α] (l : List α) (x : α)
    (k : Nat) (h : pyIndex l x = some k) : k < l.length :=
  get?_some_lt l k x (pyIndex_some_get l x k h)

theorem mem_exists_get? {α : Type} :
    ∀ (l : List α) (a : α), a ∈ l → ∃ n, l.get? n = some a := by
  intro l
  induction l with
  | nil => intro a h; cases h
  | cons b rest ih =>
    intro a h
    rcases List.mem_cons.mp h with rfl | h
    · exact ⟨0, rfl⟩
    · obtain ⟨n, hn⟩ := ih a h
      exact ⟨n + 1, hn⟩

theorem lt_exists_get? {α : Type} :
    ∀ (l : List α) (n : Nat), n < l.length → ∃ x, l.get? n = some x := by
  intro l
  induction l with
  | nil => intro n h; simp at h
  | cons b rest ih =>
    intro n h
    cases n with
    | zero => exact ⟨b, rfl⟩
    | succ n =>
      simp only [List.length_cons] at h
      obtain ⟨x, hx⟩ := ih n (by omega)
      exact ⟨x, hx⟩

theorem get?_mem' {α : Type} :
    ∀ (l : List α) (n : Nat) (x : α), l.get? n = some x → x ∈ l := by
  intro l
  induction l with
  | nil => intro n x h; simp [List.get?] at h
  | cons b rest ih =>
    intro n x h
    cases n with
    | zero =>
      simp only [List.get?] at h
      injection h with h
      subst h
      exact List.mem_cons_self b rest
    | succ n =>
      simp only [List.get?] at h
      exact List.mem_cons_of_mem b (ih n x h)

/-- The state invariant of the index-finding loop of `_apply_env`, for an
exact application: the processed tools `done` relate to the applied list
in one of three ways — nothing matched yet (`expected = -1`), a found-run
in progress at base offset `a0`, or the applied list fully matched with
the append index fixed at the first fresh tool. -/
def ScanInv (applied done : List String) (tlen : Nat) (exp : Int)
    (app : Nat) : Prop :=
  (exp = -1 ∧ (∀ x ∈ done, x ∉ applied) ∧
    app = (if done = [] then tlen else 0))
  ∨ (∃ a0 : Nat, exp = (a0 : Int) + done.length ∧ done ≠ [] ∧
      a0 + done.length ≤ applied.length ∧ app = tlen ∧
      (∀ j x, done.get? j = some x → pyIndex applied x = some (a0 + j)))
  ∨ (∃ a0 s : Nat, exp = (applied.length : Int) ∧ s < done.length ∧
      app = s ∧ a0 + s = applied.length ∧ s < tlen ∧
      (∀ j x, j < s → done.get? j = some x → pyIndex applied x = some (a0 + j)) ∧
      (∀ j x, s ≤ j → done.get? j = some x → x ∉ applied))

/-- When the scan has consumed all desired tools without resetting, the
invariant forces the applied list to be exactly the part of the desired
list before the append index. -/
theorem scanInv_final (applied done : List String) (exp : Int) (app : Nat)
    (hnd : applied.Nodup) (hsub : ∀ a ∈ applied, a ∈ done)
    (hinv : ScanInv applied done done.length exp app) :
    applied ++ done.drop app = done := by
  rcases hinv with ⟨-, hmiss, happ⟩ |
    ⟨a0, hexp, hne, hlen, happ, hmatch⟩ |
    ⟨a0, s, hexp, hs, happ, hlen, hstlen, hmatch, hmiss⟩
  · have hempty : applied = [] := by
      cases happlied : applied with
      | nil => rfl
      | cons p ps =>
        exfalso
        have hp : p ∈ applied := by
          rw [happlied]; exact List.mem_cons_self _ _
        exact hmiss p (hsub p hp) hp
    subst hempty
    by_cases hd : done = []
    · subst hd; simp
    · rw [if_neg hd] at happ
      subst happ
      simp
  · subst happ
    have hdpos : 0 < done.length := List.length_pos.mpr hne
    have hapos : 0 < applied.length := by omega
    obtain ⟨p0, hp0⟩ := lt_exists_get? applied 0 hapos
    obtain ⟨j, hj⟩ := mem_exists_get? done p0 (hsub p0 (get?_mem' applied 0 p0 hp0))
    have h1 : pyIndex applied p0 = some (a0 + j) := hmatch j p0 hj
    have h2 : pyIndex applied p0 = some 0 := pyIndex_get applied hnd 0 p0 hp0
    have ha0 : a0 = 0 := by
      rw [h1] at h2; injection h2 with h2; omega
    subst ha0
    have hle : applied.length ≤ done.length := by
      by_contra hcon
      push_neg at hcon
      obtain ⟨x, hx⟩ := lt_exists_get? applied done.length hcon
      obtain ⟨j', hj'⟩ := mem_exists_get? done x (hsub x (get?_mem' applied _ x hx))
      have hj'lt : j' < done.length := get?_some_lt done j' x hj'
      have e1 : pyIndex applied x = some (0 + j') := hmatch j' x hj'
      have e2 : pyIndex applied x = some done.length :=
        pyIndex_get applied hnd done.length x hx
      rw [e1] at e2; injection e2 with e2; omega
    have heq : applied = done := by
      apply List.ext
      intro n
      by_cases hn : n < done.length
      · obtain ⟨xn, hxn⟩ := lt_exists_get? done n hn
        have : pyIndex applied xn = some n := by
          have := hmatch n xn hxn
          simpa using this
        rw [hxn, pyIndex_some_get applied xn n this]
      · push_neg at hn
        rw [List.get?_eq_none.mpr hn, List.get?_eq_none.mpr (by omega)]
    rw [List.drop_length, List.append_nil]
    exact heq
  · subst happ
    by_cases hs0 : app = 0
    · subst hs0
      have hempty : applied = [] := by
        cases happlied : applied with
        | nil => rfl
        | cons p ps =>
          exfalso
          have hp : p ∈ applied := by
            rw [happlied]; exact List.mem_cons_self _ _
          obtain ⟨j, hj⟩ := mem_exists_get? done p (hsub p hp)
          exact hmiss j p (Nat.zero_le j) hj hp
      subst hempty
      simp
    · have hspos : 0 < app := Nat.pos_of_ne_zero hs0
      have hapos : 0 < applied.length := by omega
      obtain ⟨p0, hp0⟩ := lt_exists_get? applied 0 hapos
      obtain ⟨j, hj⟩ := mem_exists_get? done p0 (hsub p0 (get?_mem' applied 0 p0 hp0))
      have ha0 : a0 = 0 := by
        by_cases hjs : j < app
        · have h1 : pyIndex applied p0 = some (a0 + j) := hmatch j p0 hjs hj
          have h2 : pyIndex applied p0 = some 0 :=
            pyIndex_get applied hnd 0 p0 hp0
          rw [h1] at h2; injection h2 with h2; omega
        · exact absurd (get?_mem' applied 0 p0 hp0)
            (hmiss j p0 (by omega) hj)
      subst ha0
      have halen : applied.length = app := by omega
      have heq : applied = done.take app := by
        apply List.ext
        intro n
        by_cases hn : n < app
        · obtain ⟨xn, hxn⟩ := lt_exists_get? done n (by omega)
          have hpy : pyIndex applied xn = some n := by
            have := hmatch n xn hn hxn
            simpa using this
          rw [pyIndex_some_get applied xn n hpy, List.get?_take hn, hxn]
        · push_neg at hn
          rw [List.get?_eq_none.mpr (by omega)]
          rw [List.get?_eq_none.mpr (by simp [List.length_take]; omega)]
      rw [heq, List.take_append_drop]

theorem get?_append_elem {α : Type} (l : List α) (t : α) (j : Nat) (x : α)
    (h : (l ++ [t]).get? j = some x) :
    (j < l.length ∧ l.get? j = some x) ∨ (j = l.length ∧ x = t) := by
  by_cases hj : j < l.length
  · exact Or.inl ⟨hj, by rwa [List.get?_append hj] at h⟩
  · push_neg at hj
    rw [List.get?_append_right hj] at h
    have hlt := get?_some_lt [t] (j - l.length) x h
    simp only [List.length_singleton] at hlt
    have hj0 : j - l.length = 0 := by omega
    rw [hj0] at h
    injection h with h
    exact Or.inr ⟨by omega, h.symm⟩

theorem get?_append_last {α : Type} (l : List α) (t : α) :
    (l ++ [t]).get? l.length = some t := by
  rw [List.get?_append_right (le_refl _)]
  simp

/-- The induction along the index-finding loop: starting in the invariant
with the applied list duplicate-free and contained in the desired list,
a reset-free completion yields an append index that makes the final
applied list exactly the desired one. -/
theorem scanGo_exact_inv :
    ∀ (rest done applied : List String) (exp : Int) (app app' : Nat),
      applied.Nodup → (∀ a ∈ applied, a ∈ done ++ rest) →
      ScanInv applied done (done ++ rest).length exp app →
      scanGo applied (done ++ rest).length applied.length rest done.length
        exp app = (false, app') →
      applied ++ (done ++ rest).drop app' = done ++ rest := by
  intro rest
  induction rest with
  | nil =>
    intro done applied exp app app' hnd hsub hinv hrun
    rw [scanGo] at hrun
    injection hrun with h1 h2
    subst h2
    simp only [List.append_nil] at hsub hinv ⊢
    exact scanInv_final applied done exp app hnd hsub hinv
  | cons t rest' ih =>
    intro done applied exp app app' hnd hsub hinv hrun
    have hassoc : done ++ t :: rest' = (done ++ [t]) ++ rest' :=
      List.append_cons done t rest'
    have hsub' : ∀ a ∈ applied, a ∈ (done ++ [t]) ++ rest' := by
      intro a ha; rw [← hassoc]; exact hsub a ha
    have hlen' : ((done ++ [t]) ++ rest').length = (done ++ t :: rest').length := by
      rw [hassoc]
    have hdlen' : (done ++ [t]).length = done.length + 1 := by simp
    rw [scanGo] at hrun
    cases hpy : pyIndex applied t with
    | some actual =>
      rw [hpy] at hrun
      dsimp only at hrun
      have hact_lt : actual < applied.length :=
        pyIndex_lt_length applied t actual hpy
      by_cases h0 : done.length = 0 ∧
          ((done ++ t :: rest').length > 1 ∨ actual + 1 = applied.length)
      · rw [if_pos h0, if_pos rfl] at hrun
        have hdone : done = [] := List.length_eq_zero.mp h0.1
        subst hdone
        rcases hinv with ⟨hexp, -, happA⟩ | ⟨a0, -, hne, -⟩ | ⟨a0, s, -, hs, -⟩
        · rw [if_pos rfl] at happA
          subst happA
          -- establish the found-run invariant for done' = [t]
          have hinv' : ScanInv applied ([] ++ [t])
              ((([] ++ [t]) ++ rest').length) ((actual : Int) + 1)
              (([] ++ t :: rest').length) := by
            refine Or.inr (Or.inl ⟨actual, ?_, by simp, ?_, ?_, ?_⟩)
            · simp
            · simp only [List.nil_append, List.length_singleton]
              omega
            · rw [hlen']
            · intro j x hj
              rcases get?_append_elem [] t j x (by simpa using hj) with
                ⟨hjl, -⟩ | ⟨hj0, rfl⟩
              · simp at hjl
              · simp only [List.length_nil] at hj0
                subst hj0
                simpa using hpy
          have := ih ([] ++ [t]) applied ((actual : Int) + 1)
            (([] ++ t :: rest').length) app' hnd hsub' hinv' ?_
          · rw [hassoc]; exact this
          · rw [hlen', hdlen']
            simpa using hrun
        · exact absurd rfl hne
        · simp at hs
      · rw [if_neg h0] at hrun
        by_cases hae : (actual : Int) = exp
        · rw [if_pos hae] at hrun
          rcases hinv with ⟨hexp, -, -⟩ | ⟨a0, hexp, hne, hl, happ, hmatch⟩ |
            ⟨a0, s, hexp, hs, happ, hl, hstlen, hmatch, hmiss⟩
          · subst hexp; omega
          · have hact : actual = a0 + done.length := by
              rw [hexp] at hae; omega
            have hinv' : ScanInv applied (done ++ [t])
                (((done ++ [t]) ++ rest').length) (exp + 1)
                ((done ++ t :: rest').length) := by
              refine Or.inr (Or.inl ⟨a0, ?_, by simp, ?_, ?_, ?_⟩)
              · rw [hexp, hdlen']
                push_cast
                ring
              · rw [hdlen']; omega
              · rw [hlen']
              · intro j x hj
                rcases get?_append_elem done t j x hj with ⟨hjl, hjd⟩ | ⟨hj0, rfl⟩
                · exact hmatch j x hjd
                · subst hj0
                  rw [hpy, hact]
            have := ih (done ++ [t]) applied (exp + 1)
              ((done ++ t :: rest').length) app' hnd hsub' hinv' ?_
            · rw [hassoc]; exact this
            · rw [hlen', hdlen']
              rw [happ] at hrun
              exact hrun
          · rw [hexp] at hae; omega
        · rw [if_neg hae] at hrun
          injection hrun with hb
          cases hb
    | none =>
      rw [hpy] at hrun
      dsimp only at hrun
      have htmiss : t ∉ applied := (pyIndex_eq_none applied t).mp hpy
      rcases hinv with ⟨hexp, hmissA, happ⟩ | ⟨a0, hexp, hne, hl, happ, hmatch⟩ |
        ⟨a0, s, hexp, hs, happ, hl, hstlen, hmatch, hmiss⟩
      · subst hexp
        rw [if_pos rfl] at hrun
        have hinv' : ScanInv applied (done ++ [t])
            (((done ++ [t]) ++ rest').length) (-1) 0 := by
          refine Or.inl ⟨rfl, ?_, ?_⟩
          · intro x hx
            rcases List.mem_append.mp hx with hx | hx
            · exact hmissA x hx
            · rw [List.mem_singleton] at hx
              subst hx
              exact htmiss
          · rw [if_neg (by simp)]
        have := ih (done ++ [t]) applied (-1) 0 app' hnd hsub' hinv' ?_
        · rw [hassoc]; exact this
        · rw [hlen', hdlen']
          exact hrun
      · have hne1 : ¬ (exp = -1) := by rw [hexp]; omega
        rw [if_neg hne1] at hrun
        by_cases heq : a0 + done.length = applied.length
        · have heq' : exp = (applied.length : Int) := by rw [hexp]; omega
          rw [if_pos heq', happ, if_pos rfl] at hrun
          have hinv' : ScanInv applied (done ++ [t])
              (((done ++ [t]) ++ rest').length) exp done.length := by
            refine Or.inr (Or.inr ⟨a0, done.length, heq', ?_, rfl, heq, ?_, ?_, ?_⟩)
            · rw [hdlen']; omega
            · rw [hlen']
              simp only [List.length_append, List.length_cons]
              omega
            · intro j x hj hjd
              rcases get?_append_elem done t j x hjd with ⟨-, hjd'⟩ | ⟨hj0, rfl⟩
              · exact hmatch j x hjd'
              · omega
            · intro j x hj hjd
              rcases get?_append_elem done t j x hjd with ⟨hjl, -⟩ | ⟨hj0, rfl⟩
              · omega
              · exact htmiss
          have := ih (done ++ [t]) applied exp done.length app' hnd hsub' hinv' ?_
          · rw [hassoc]; exact this
          · rw [hlen', hdlen']
            exact hrun
        · have hne2 : ¬ (exp = (applied.length : Int)) := by rw [hexp]; omega
          rw [if_neg hne2] at hrun
          injection hrun with hb
          cases hb
      · have hne1 : ¬ (exp = -1) := by rw [hexp]; omega
        rw [if_neg hne1, if_pos hexp, happ] at hrun
        have hsne : ¬ (s = (done ++ t :: rest').length) := by omega
        rw [if_neg hsne] at hrun
        have hinv' : ScanInv applied (done ++ [t])
            (((done ++ [t]) ++ rest').length) exp s := by
          refine Or.inr (Or.inr ⟨a0, s, hexp, ?_, rfl, hl, ?_, ?_, ?_⟩)
          · rw [hdlen']; omega
          · rw [hlen']; omega
          · intro j x hj hjd
            rcases get?_append_elem done t j x hjd with ⟨-, hjd'⟩ | ⟨hj0, rfl⟩
            · exact hmatch j x hj hjd'
            · omega
          · intro j x hj hjd
            rcases get?_append_elem done t j x hjd with ⟨hjl, hjd'⟩ | ⟨hj0, rfl⟩
            · exact hmiss j x hj hjd'
            · exact htmiss
        have := ih (done ++ [t]) applied exp s app' hnd hsub' hinv' ?_
        · rw [hassoc]; exact this
        · rw [hlen', hdlen']
          exact hrun

/-- An exact application over a duplicate-free applied list always ends
with the applied providers exactly the desired list: either the absent- or
out-of-order cases force a reset and a full re-application, or the scan
certifies the applied list was a prefix of the desired one. -/
theorem applyEnvTools_exact (st : EnvState) (tools : List String)
    (hnd : st.appliedTools.Nodup) :
    (applyEnvTools true st tools).appliedTools = tools := by
  by_cases hre : exactReset st.appliedTools tools = true
  · simp [applyEnvTools, hre, resetEnvironment]
  · have hre' : exactReset st.appliedTools tools = false := by
      revert hre; cases exactReset st.appliedTools tools <;> simp
    have hsub : ∀ a ∈ st.appliedTools, a ∈ tools := by
      intro a ha
      by_contra hna
      exact hre (List.any_eq_true.mpr ⟨a, ha, by simp [hna]⟩)
    cases hscan : scanTools st.appliedTools tools with
    | mk reset appv =>
      cases reset with
      | true =>
        simp only [applyEnvTools, hre', Bool.and_false, Bool.false_eq_true,
          if_neg (by simp : ¬ False), hscan, resetEnvironment]
        simp
      | false =>
        have hfin : st.appliedTools ++ tools.drop appv = tools := by
          have hinv0 : ScanInv st.appliedTools [] ([] ++ tools).length
              (-1) tools.length := by
            refine Or.inl ⟨rfl, by simp, ?_⟩
            simp
          have := scanGo_exact_inv tools [] st.appliedTools (-1)
            tools.length appv hnd (by simpa using hsub) hinv0 ?_
          · simpa using this
          · simp only [List.nil_append, List.length_nil]
            exact hscan
        simp only [applyEnvTools, hre', Bool.and_false, Bool.false_eq_true,
          if_neg (by simp : ¬ False), hscan]
        simpa using hfin

/-! ## Claim C5 -/

/-- A committed augment whose tool is already applied and whose check is
already remembered. -/
def c5Aug : Augment :=
  { aid := 0,
    Specification :=
      { sid := 0, Components := some ["LD"], Checks := some [0],
        Dependencies := Option.none },
    Tool := some "X", Component := some "LD", Valid := true }

/-- C5 counterexample: `Finalize` passes the committed checks as optional
checks of `_apply_env`, so the remembered check `0` of the committed
augment is not executed at all (the executed list is empty) — the claim
requires every required check of every committed augment to run one final
time. -/
theorem c5_counterexample :
    Finalize alwaysPass
        { env := { appliedTools := ["X"], appliedChecks := [0] },
          augments := [c5Aug] } =
      .ok ({ appliedTools := ["X"], appliedChecks := [0] }, [], []) ∧
    finalChecks [c5Aug] = [0] := by
  exact ⟨rfl, rfl⟩

/-- C5 (amended): `Finalize` performs an exact application — over a
duplicate-free applied list the resulting applied providers are precisely
the Tools of the committed augments — but passes the committed checks as
optional checks: a check is executed exactly when it is not already
remembered after the tool application (in particular, after a reset
cleared the memory, all of them run). -/
theorem c5_amended (res : Nat → CheckBehavior) (hnr : NoRaise res)
    (st : ResolverState) (hnd : st.env.appliedTools.Nodup) :
    ∃ (st' : EnvState) (failed executed : List Nat),
      Finalize res st = .ok (st', failed, executed) ∧
      st'.appliedTools = finalTools st.augments ∧
      (∀ c, c ∈ executed ↔ c ∈ finalChecks st.augments ∧
        c ∉ (applyEnvTools true st.env (finalTools st.augments)).appliedChecks) := by
  rw [Finalize, applyEnv]
  have h1 : runChecksPhase res true []
      (applyEnvTools true st.env (finalTools st.augments)).appliedChecks [] [] =
      .ok ((applyEnvTools true st.env (finalTools st.augments)).appliedChecks,
        [], []) := rfl
  rw [h1]
  dsimp only
  rw [runChecksPhase_false_eq res hnr]
  dsimp only
  refine ⟨_, _, _, rfl, ?_, ?_⟩
  · exact applyEnvTools_exact st.env (finalTools st.augments) hnd
  · intro c
    exact mem_newOnes (finalChecks st.augments) _ c

/-- C5 amended witness: the amended statement applied at the concrete
counterexample session. -/
theorem c5_amended_witness :
    ∃ (st' : EnvState) (failed executed : List Nat),
      Finalize alwaysPass
          { env := { appliedTools := ["X"], appliedChecks := [0] },
            augments := [c5Aug] } = .ok (st', failed, executed) ∧
      st'.appliedTools = finalTools [c5Aug] ∧
      (∀ c, c ∈ executed ↔ c ∈ finalChecks [c5Aug] ∧
        c ∉ (applyEnvTools true
          { appliedTools := ["X"], appliedChecks := [0] }
          (finalTools [c5Aug])).appliedChecks) :=
  c5_amended alwaysPass noRaise_alwaysPass
    { env := { appliedTools := ["X"], appliedChecks := [0] },
      augments := [c5Aug] } (by simp)

/-! ## Claim C9 -/

/-- The retry loop returns the caller's committed list untouched on its
failure exit, whatever happened to the working copies. -/
theorem addLoop_false_augments (res : Nat → CheckBehavior)
    (base : List String) (compOf : String → List (String × Bool))
    (ctools : List String) (orig : List Augment) :
    ∀ (fuel : Nat) (augs : List Augment) (env : EnvState) (change : List Nat)
      (changes : List (List Nat)) (doLoop : Bool) (st' : ResolverState),
      addLoop res base compOf ctools orig fuel augs env change changes doLoop =
        some (.ok (false, st')) →
      st'.augments = orig := by
  intro fuel
  induction fuel with
  | zero => intro _ _ _ _ _ _ h; cases h
  | succ fuel ih =>
    intro augs env change changes doLoop st' h
    rw [addLoop.eq_def] at h
    split at h
    · cases h
    · rename_i fuel2 heq
      injection heq with heq
      subst heq
      split at h
      · injection h with h
        injection h with h
        injection h with h1 h2
        rw [← h2]
      · split at h
        · exact ih _ _ _ _ _ _ h
        · dsimp only at h
          split at h
          · exact ih _ _ _ _ _ _ h
          · split at h
            · cases h
            · split at h
              · injection h with h
                injection h with h
                injection h with h1 h2
                cases h1
              · exact ih _ _ _ _ _ _ h

/-- Every failure exit of `AddAugment` hands back the committed augment
list unchanged. -/
theorem AddAugment_false_preserves (res : Nat → CheckBehavior)
    (base : List String) (compOf : String → List (String × Bool))
    (ctools : List String) (fuel : Nat) (st : ResolverState)
    (spec : Specification) (st' : ResolverState)
    (h : AddAugment res base compOf ctools fuel st spec =
      some (.ok (false, st'))) :
    st'.augments = st.augments := by
  rw [AddAugment] at h
  split at h
  · split at h
    · cases h
    · split at h
      · injection h with h
        injection h with h
        injection h with h1 h2
        cases h1
      · injection h with h
        injection h with h
        injection h with h1 h2
        rw [← h2]
  · split at h
    · injection h with h
      injection h with h
      injection h with h1 h2
      rw [← h2]
    · exact addLoop_false_augments res base compOf ctools st.augments
        fuel _ _ _ _ _ st' h

/-- C9: whenever `AddAugment` returns failure, the committed augment list
is exactly what it was before the call — the search works on a clone and
only a successful exit installs it. -/
theorem c9_failure_preserves (res : Nat → CheckBehavior)
    (base : List String) (compOf : String → List (String × Bool))
    (ctools : List String) (fuel : Nat) (st : ResolverState)
    (spec : Specification) (st' : ResolverState)
    (h : AddAugment res base compOf ctools fuel st spec =
      some (.ok (false, st'))) :
    st'.augments = st.augments :=
  AddAugment_false_preserves res base compOf ctools fuel st spec st' h

/-- A specification whose only candidate component is `LD`. -/
def unsatSpec : Specification :=
  { sid := 6, Components := some ["LD"], Checks := Option.none,
    Dependencies := Option.none }

/-- A cache that knows no components for any tool. -/
def emptyCompOf : String → List (String × Bool) := fun _ => []

/-- C9 witness: a failing `AddAugment` over a session with one committed
augment leaves the committed list equal to itself. -/
theorem c9_failure_preserves_witness :
    ([c5Aug] : List Augment) = [c5Aug] :=
  c9_failure_preserves failZero ["CC"] emptyCompOf ["t1", "t2"] 3
    { env := { appliedTools := [], appliedChecks := [] }, augments := [c5Aug] }
    unsatSpec
    { env := { appliedTools := [], appliedChecks := [] }, augments := [c5Aug] }
    (by rfl)

/-! ## Claim C8 -/

/-- A candidate walk over a slice with no hits finds nothing and leaves
the probe offset untouched. -/
theorem walkCandidates_none (hit : String → Bool) :
    ∀ (cs : List String) (off : Int), (∀ c ∈ cs, hit c = false) →
      walkCandidates hit cs off = (Option.none, off) := by
  intro cs
  induction cs with
  | nil => intro off _; rfl
  | cons c rest ih =>
    intro off hmiss
    rw [walkCandidates, hmiss c (List.mem_cons_self c rest)]
    exact ih off (fun x hx => hmiss x (List.mem_cons_of_mem c hx))

/-- The tool walk over tools none of which supplies any candidate finds
nothing: it visits each `(tool, candidate)` pair once and stops at the end
of the tool list. -/
theorem getToolGo_none (compOf : String → List (String × Bool))
    (resetCs : List String) :
    ∀ (ts cs : List String) (off : Int),
      (∀ t ∈ ts, ∀ c ∈ cs, c ∉ cacheKeys compOf t) →
      (∀ t ∈ ts, ∀ c ∈ resetCs, c ∉ cacheKeys compOf t) →
      getToolGo compOf resetCs ts cs off = (Option.none, off) := by
  intro ts
  induction ts with
  | nil => intro cs off _ _; rfl
  | cons t rest ih =>
    intro cs off h1 h2
    rw [getToolGo,
      walkCandidates_none _ cs off
        (fun c hc => by
          simpa using h1 t (List.mem_cons_self t rest) c hc)]
    exact ih resetCs off
      (fun t' ht' c hc => h2 t' (List.mem_cons_of_mem t ht') c hc)
      (fun t' ht' c hc => h2 t' (List.mem_cons_of_mem t ht') c hc)

/-- Initial component selection fails outright when no candidate is a key
of the base environment and no cached tool supplies one. -/
theorem setComponent_unsat (base : List String)
    (compOf : String → List (String × Bool)) (ctools : List String)
    (aid : Nat) (spec : Specification) (comps : List String)
    (hc : spec.Components = some comps)
    (hbase : ∀ c ∈ comps, c ∉ base)
    (hcache : ∀ t ∈ ctools, ∀ c ∈ comps, c ∉ cacheKeys compOf t) :
    setComponent base compOf ctools (mkAugment aid spec) 0 = Option.none := by
  rw [setComponent]
  simp only [mkAugment, hc]
  rw [if_pos (by norm_num : (0 : Int) ≥ 0)]
  have hlocal : setComponentLocal base comps Option.none 0 = (Option.none, 0) := by
    rw [setComponentLocal]
    rw [if_pos (by norm_num : (0 : Int) ≥ 0)]
    exact walkCandidates_none _ _ 0
      (fun c hc => by simpa using hbase c (List.mem_of_mem_drop hc))
  rw [hlocal]
  dsimp only
  have hget : GetTool compOf ctools comps comps.head? Option.none 0 =
      (Option.none, 0) := by
    rw [GetTool.eq_def]
    by_cases hct : ctools = []
    · rw [if_pos hct]
    · rw [if_neg hct, if_pos (by norm_num : (0 : Int) ≥ 0)]
      have hcidx : (match comps.head? with
          | some r => pyIndexD comps r
          | Option.none => 0) = 0 := by
        cases comps with
        | nil => rfl
        | cons c0 cs => simp [pyIndexD, pyIndex]
      rw [hcidx]
      exact getToolGo_none compOf comps (ctools.drop 0) (comps.drop 0) 0
        (fun t ht c hcm => hcache t (by simpa using ht) c (List.mem_of_mem_drop hcm))
        (fun t ht c hcm => hcache t (by simpa using ht) c hcm)
  rw [hget]
  

/-- C8: for a specification whose candidate components are absent from
the base environment and from every provider known to the cache,
`AddAugment` fails immediately — for every loop bound — leaving the state
untouched, and the caller surfaces the failure as the `ToolNotFound`
member of the `Unsatisfiable` error family.  The probes themselves are
the structurally bounded walks over the candidate slices of each cached
tool, so the search cannot loop. -/
theorem c8_unsatisfiable (res : Nat → CheckBehavior) (base : List String)
    (compOf : String → List (String × Bool)) (ctools : List String)
    (st : ResolverState) (spec : Specification) (comps : List String)
    (name : String)
    (hc : spec.Components = some comps)
    (hbase : ∀ c ∈ comps, c ∉ base)
    (hcache : ∀ t ∈ ctools, ∀ c ∈ comps, c ∉ cacheKeys compOf t) :
    (∀ fuel, AddAugment res base compOf ctools fuel st spec =
      some (.ok (false, st))) ∧
    (∀ fuel, FindComponent res base compOf ctools fuel st name spec =
      some (.ok (.error (.ToolNotFound name)))) := by
  have hadd : ∀ fuel, AddAugment res base compOf ctools fuel st spec =
      some (.ok (false, st)) := by
    intro fuel
    rw [AddAugment]
    simp only [hc]
    rw [setComponent_unsat base compOf ctools (freshAid st.augments) spec
      comps hc hbase hcache]
  refine ⟨hadd, ?_⟩
  intro fuel
  rw [FindComponent, hadd fuel]

/-- C8 witness: the statement applied at a concrete unsatisfiable
session — a request for `LD` against a base holding only `CC` and a
cache of two tools supplying nothing. -/
theorem c8_unsatisfiable_witness :
    AddAugment failZero ["CC"] emptyCompOf ["t1", "t2"] 7 initialState
      unsatSpec = some (.ok (false, initialState)) ∧
    FindComponent failZero ["CC"] emptyCompOf ["t1", "t2"] 7 initialState
      "LD" unsatSpec = some (.ok (.error (.ToolNotFound "LD"))) :=
  ⟨(c8_unsatisfiable failZero ["CC"] emptyCompOf ["t1", "t2"] initialState
      unsatSpec ["LD"] "LD" rfl (by decide) (by decide)).1 7,
   (c8_unsatisfiable failZero ["CC"] emptyCompOf ["t1", "t2"] initialState
      unsatSpec ["LD"] "LD" rfl (by decide) (by decide)).2 7⟩

/-! ## Claim C7 -/

/-- A zero-offset candidate walk returns the first hit. -/
theorem walkCandidates_zero_find (hit : String → Bool) (c0 : String) :
    ∀ cs : List String, cs.find? hit = some c0 →
      walkCandidates hit cs 0 = (some c0, 0) := by
  intro cs
  induction cs with
  | nil => intro h; simp [List.find?] at h
  | cons c rest ih =>
    intro h
    by_cases hc : hit c = true
    · rw [List.find?_cons_of_pos _ hc] at h
      injection h with h
      subst h
      rw [walkCandidates, hc]
      norm_num
    · rw [List.find?_cons_of_neg _ hc] at h
      rw [walkCandidates]
      simp only [Bool.not_eq_true] at hc
      rw [hc]
      exact ih h

/-- C7: when some candidate component is literally a key of the base
environment, initial component selection (offset `0`, fresh augment)
resolves locally: the augment gets the first such candidate with
`Tool = none`, and the result is the same for every cache — the
`ProviderCache` is never consulted. -/
theorem c7_local_resolution (base : List String) (aid : Nat)
    (spec : Specification) (comps : List String) (c0 : String)
    (hc : spec.Components = some comps)
    (hfind : comps.find? (fun c => decide (c ∈ base)) = some c0) :
    ∀ (compOf : String → List (String × Bool)) (ctools : List String),
      setComponent base compOf ctools (mkAugment aid spec) 0 =
        some { aid := aid, Specification := spec, Tool := Option.none,
               Component := some c0, Valid := false } := by
  intro compOf ctools
  rw [setComponent]
  simp only [mkAugment, hc]
  rw [if_pos (by norm_num : (0 : Int) ≥ 0)]
  have hlocal : setComponentLocal base comps Option.none 0 = (some c0, 0) := by
    rw [setComponentLocal]
    rw [if_pos (by norm_num : (0 : Int) ≥ 0)]
    rw [List.drop_zero]
    exact walkCandidates_zero_find _ c0 comps hfind
  rw [hlocal]

/-- C7 witness: a request whose second candidate `INCLUDE` is a base key
resolves to it locally under a cache that knows nothing. -/
theorem c7_local_resolution_witness :
    setComponent ["INCLUDE", "CC"] emptyCompOf [] (mkAugment 9
        { sid := 7, Components := some ["AR", "INCLUDE"],
          Checks := Option.none, Dependencies := Option.none }) 0 =
      some { aid := 9,
             Specification :=
               { sid := 7, Components := some ["AR", "INCLUDE"],
                 Checks := Option.none, Dependencies := Option.none },
             Tool := Option.none, Component := some "INCLUDE",
             Valid := false } :=
  c7_local_resolution ["INCLUDE", "CC"] 9
    { sid := 7, Components := some ["AR", "INCLUDE"],
      Checks := Option.none, Dependencies := Option.none }
    ["AR", "INCLUDE"] "INCLUDE" rfl (by decide) emptyCompOf []

/-! ## Claim C6 -/

/-- The tool at a position of an augment list (`none` when the position is
out of range or the augment has no tool). -/
def toolAt (l : List Augment) (i : Nat) : Option String :=
  (l.get? i).bind (fun a => a.Tool)

/-- Contiguity of same-provider augments: between two positions carrying
the same tool, every position carries that tool. -/
def ToolContig (l : List Augment) : Prop :=
  ∀ i j k t, i ≤ j → j ≤ k → toolAt l i = some t → toolAt l k = some t →
    toolAt l j = some t

theorem toolContig_nil : ToolContig [] := by
  intro i j k t _ _ hi _
  simp [toolAt, List.get?] at hi

theorem insertAt_get? {α : Type} (a : α) :
    ∀ (idx : Nat) (l : List α), idx ≤ l.length → ∀ n,
      (insertAt idx a l : List α).get? n =
        if n < idx then l.get? n else if n = idx then some a
        else l.get? (n - 1) := by
  intro idx
  induction idx with
  | zero =>
    intro l _ n
    cases n with
    | zero => rfl
    | succ n => simp [insertAt, List.get?]
  | succ idx ih =>
    intro l hl n
    cases l with
    | nil => simp at hl
    | cons b l' =>
      rw [show insertAt (idx + 1) a (b :: l') = b :: insertAt idx a l' from rfl]
      cases n with
      | zero =>
        rw [if_pos (show (0 : Nat) < idx + 1 by omega)]
        rfl
      | succ n =>
        have hstep : (b :: insertAt idx a l').get? (n + 1) =
            (insertAt idx a l').get? n := rfl
        rw [hstep, ih l' (by simpa using hl) n]
        by_cases h1 : n < idx
        · rw [if_pos h1, if_pos (show n + 1 < idx + 1 by omega)]
          rfl
        · rw [if_neg h1, if_neg (show ¬ (n + 1 < idx + 1) by omega)]
          by_cases h2 : n = idx
          · rw [if_pos h2, if_pos (show n + 1 = idx + 1 by omega)]
          · rw [if_neg h2, if_neg (show ¬ (n + 1 = idx + 1) by omega)]
            have h4 : n + 1 - 1 = (n - 1) + 1 := by omega
            rw [h4]
            rfl

theorem toolAt_insertAt (a : Augment) (l : List Augment) (idx : Nat)
    (h : idx ≤ l.length) (n : Nat) :
    toolAt (insertAt idx a l) n =
      if n < idx then toolAt l n else if n = idx then a.Tool
      else toolAt l (n - 1) := by
  rw [toolAt, insertAt_get? a idx l h n]
  by_cases h1 : n < idx
  · rw [if_pos h1, if_pos h1]; rfl
  · rw [if_neg h1, if_neg h1]
    by_cases h2 : n = idx
    · rw [if_pos h2, if_pos h2]; rfl
    · rw [if_neg h2, if_neg h2]; rfl

/-- The two conditions under which inserting an augment at a position
keeps same-tool augments contiguous: the insertion never separates two
neighbours of one foreign tool, and when the augment's own tool already
occurs, the position is adjacent to its block. -/
def InsertPos (a : Augment) (l : List Augment) (idx : Nat) : Prop :=
  idx ≤ l.length ∧
  (∀ t', 1 ≤ idx → toolAt l (idx - 1) = some t' → toolAt l idx = some t' →
    a.Tool = some t') ∧
  (∀ t, a.Tool = some t → (∃ j, toolAt l j = some t) →
    (toolAt l idx = some t ∨ (1 ≤ idx ∧ toolAt l (idx - 1) = some t)))

/-- Inserting at a position satisfying `InsertPos` preserves
contiguity. -/
theorem toolContig_insertAt (l : List Augment) (a : Augment) (idx : Nat)
    (hc : ToolContig l) (hp : InsertPos a l idx) :
    ToolContig (insertAt idx a l) := by
  obtain ⟨hidx, hP1, hP2⟩ := hp
  intro i j k t hij hjk hi hk
  rw [toolAt_insertAt a l idx hidx] at hi hk ⊢
  -- translate endpoint facts
  by_cases hji : j = idx
  · -- goal: a.Tool = some t
    rw [if_neg (by omega), if_pos hji]
    by_cases hii : i = idx
    · rwa [if_neg (by omega), if_pos hii] at hi
    · by_cases hkk : k = idx
      · rwa [if_neg (by omega), if_pos hkk] at hk
      · -- i < idx and k > idx
        have hilt : i < idx := by omega
        have hkgt : idx < k := by omega
        rw [if_pos hilt] at hi
        rw [if_neg (by omega), if_neg hkk] at hk
        have h1 : toolAt l (idx - 1) = some t :=
          hc i (idx - 1) (k - 1) t (by omega) (by omega) hi hk
        have h2 : toolAt l idx = some t :=
          hc i idx (k - 1) t (by omega) (by omega) hi hk
        exact hP1 t (by omega) h1 h2
  · by_cases hii : i = idx
    · -- a.Tool = some t from hi; j > idx, k > idx
      rw [if_neg (by omega), if_pos hii] at hi
      have hjgt : idx < j := by omega
      have hkgt : idx < k := by omega
      rw [if_neg (by omega), if_neg (by omega)] at hk
      rw [if_neg (by omega), if_neg (by omega)]
      rcases hP2 t hi ⟨k - 1, hk⟩ with hanch | ⟨h1, hanch⟩
      · exact hc idx (j - 1) (k - 1) t (by omega) (by omega) hanch hk
      · exact hc (idx - 1) (j - 1) (k - 1) t (by omega) (by omega) hanch hk
    · by_cases hkk : k = idx
      · -- a.Tool = some t from hk; i < idx, j < idx
        rw [if_neg (by omega), if_pos hkk] at hk
        have hilt : i < idx := by omega
        have hjlt : j < idx := by omega
        rw [if_pos hilt] at hi
        rw [if_pos hjlt]
        rcases hP2 t hk ⟨i, hi⟩ with hanch | ⟨h1, hanch⟩
        · exact hc i j idx t hij (by omega) hi hanch
        · exact hc i j (idx - 1) t hij (by omega) hi hanch
      · -- none of i, j, k is idx: map into l
        have hi' : toolAt l (if i < idx then i else i - 1) = some t := by
          by_cases h1 : i < idx
          · rw [if_pos h1]; rwa [if_pos h1] at hi
          · rw [if_neg h1]; rwa [if_neg h1, if_neg hii] at hi
        have hk' : toolAt l (if k < idx then k else k - 1) = some t := by
          by_cases h1 : k < idx
          · rw [if_pos h1]; rwa [if_pos h1] at hk
          · rw [if_neg h1]; rwa [if_neg h1, if_neg hkk] at hk
        by_cases hjlt : j < idx
        · rw [if_pos hjlt]
          refine hc (if i < idx then i else i - 1) j
            (if k < idx then k else k - 1) t ?_ ?_ hi' hk'
          · by_cases h1 : i < idx
            · rw [if_pos h1]; omega
            · rw [if_neg h1]; omega
          · by_cases h1 : k < idx
            · rw [if_pos h1]; omega
            · rw [if_neg h1]; omega
        · rw [if_neg hjlt, if_neg hji]
          refine hc (if i < idx then i else i - 1) (j - 1)
            (if k < idx then k else k - 1) t ?_ ?_ hi' hk'
          · by_cases h1 : i < idx
            · rw [if_pos h1]; omega
            · rw [if_neg h1]; omega
          · by_cases h1 : k < idx
            · rw [if_pos h1]; omega
            · rw [if_neg h1]; omega

theorem toolAt_eq_some (l : List Augment) (j : Nat) (t : String) :
    toolAt l j = some t ↔ ∃ b, l.get? j = some b ∧ b.Tool = some t := by
  rw [toolAt]
  cases h : l.get? j with
  | none => simp
  | some b => simp

theorem sameTool_true_iff (a b : Augment) :
    (a.Tool.isSome && (a.Tool == b.Tool)) = true ↔
      ∃ t, a.Tool = some t ∧ b.Tool = some t := by
  cases ha : a.Tool with
  | none => simp
  | some t =>
    simp only [Option.isSome_some, Bool.true_and, beq_iff_eq]
    constructor
    · intro h; exact ⟨t, rfl, h.symm⟩
    · rintro ⟨t', h1, h2⟩
      injection h1 with h1
      subst h1
      exact h2.symm

/-- The state of the position scan when the augment's tool has not been
seen among the processed prefix. -/
def ScanStF (compOf : String → List (String × Bool)) (a : Augment)
    (done : List Augment) (active : Nat) : Prop :=
  (∀ b ∈ done, (a.Tool.isSome && (a.Tool == b.Tool)) = false) ∧
  (active = 0 ∨
    (1 ≤ active ∧ active ≤ done.length ∧
     (∃ b, done.get? (active - 1) = some b ∧
       toolSupplies compOf b.Tool a.Component = true) ∧
     (∀ j b, active ≤ j → done.get? j = some b →
       toolSupplies compOf b.Tool a.Component = false)))

/-- The state of the position scan after the augment's tool was found at
position `active` (its first occurrence). -/
def ScanStT (a : Augment) (done : List Augment) (active : Nat) : Prop :=
  (∃ b, done.get? active = some b ∧
    (a.Tool.isSome && (a.Tool == b.Tool)) = true) ∧
  (∀ j b, j < active → done.get? j = some b →
    (a.Tool.isSome && (a.Tool == b.Tool)) = false)

theorem scanStF_insertPos (compOf : String → List (String × Bool))
    (a : Augment) (done : List Augment) (active : Nat)
    (h : ScanStF compOf a done active) : InsertPos a done active := by
  obtain ⟨hnm, hpos⟩ := h
  refine ⟨?_, ?_, ?_⟩
  · rcases hpos with rfl | ⟨-, h2, -⟩
    · exact Nat.zero_le _
    · exact h2
  · intro t' h1 ha1 ha2
    rcases hpos with rfl | ⟨-, -, ⟨b1, hb1, hc1⟩, hrest⟩
    · omega
    · exfalso
      obtain ⟨b1', hb1', ht1⟩ := (toolAt_eq_some done (active - 1) t').mp ha1
      obtain ⟨b2, hb2, ht2⟩ := (toolAt_eq_some done active t').mp ha2
      rw [hb1] at hb1'
      injection hb1' with hb1'
      subst hb1'
      have hc2 : toolSupplies compOf b2.Tool a.Component = false :=
        hrest active b2 (le_refl _) hb2
      rw [ht1] at hc1
      rw [ht2] at hc2
      rw [hc1] at hc2
      cases hc2
  · rintro t hat ⟨j, hj⟩
    exfalso
    obtain ⟨b, hb, hbt⟩ := (toolAt_eq_some done j t).mp hj
    have hfalse := hnm b (get?_mem' done j b hb)
    have htrue : (a.Tool.isSome && (a.Tool == b.Tool)) = true :=
      (sameTool_true_iff a b).mpr ⟨t, hat, hbt⟩
    rw [hfalse] at htrue
    cases htrue

theorem scanStT_insertPos (a : Augment) (done : List Augment) (active : Nat)
    (h : ScanStT a done active) : InsertPos a done active := by
  obtain ⟨⟨b, hb, hmatch⟩, hfirst⟩ := h
  obtain ⟨t0, hat, hbt⟩ := (sameTool_true_iff a b).mp hmatch
  have hlt : active < done.length := get?_some_lt done active b hb
  refine ⟨by omega, ?_, ?_⟩
  · intro t' h1 ha1 ha2
    obtain ⟨b2, hb2, ht2⟩ := (toolAt_eq_some done active t').mp ha2
    rw [hb] at hb2
    injection hb2 with hb2
    subst hb2
    rw [hbt] at ht2
    injection ht2 with ht2
    subst ht2
    exact hat
  · intro t hat' hocc
    left
    rw [toolAt_eq_some]
    refine ⟨b, hb, ?_⟩
    rw [hat] at hat'
    injection hat' with hat'
    subst hat'
    exact hbt

/-- The position scan of `_order_augments` ends, when it does not raise,
at a position where inserting the augment preserves contiguity. -/
theorem orderScanGo_spec (compOf : String → List (String × Bool)) (a : Augment) :
    ∀ (rest done : List Augment) (active : Nat) (tp : Bool)
      (ov : Option Augment) (idx : Nat),
      (tp = false → ScanStF compOf a done active) →
      (tp = true → ScanStT a done active) →
      orderScanGo compOf a rest done.length active tp ov = .ok idx →
      InsertPos a (done ++ rest) idx := by
  intro rest
  induction rest with
  | nil =>
    intro done active tp ov idx hF hT h
    rw [orderScanGo] at h
    injection h with h
    subst h
    rw [List.append_nil]
    cases tp
    · exact scanStF_insertPos compOf a done active (hF rfl)
    · exact scanStT_insertPos a done active (hT rfl)
  | cons b rest' ih =>
    intro done active tp ov idx hF hT h
    have hassoc : done ++ b :: rest' = (done ++ [b]) ++ rest' :=
      List.append_cons done b rest'
    have hdlen : (done ++ [b]).length = done.length + 1 := by simp
    rw [orderScanGo] at h
    by_cases h1 : (a.Tool.isSome && (a.Tool == b.Tool)) = true
    · rw [if_pos h1] at h
      cases htp : tp with
      | true =>
        subst htp
        rw [if_pos rfl] at h
        obtain ⟨⟨b0, hb0, hm0⟩, hfirst⟩ := hT rfl
        have hblt : active < done.length := get?_some_lt done active b0 hb0
        rw [hassoc]
        refine ih (done ++ [b]) active true ov idx
          (by intro hh; cases hh)
          (by
            intro _
            refine ⟨⟨b0, ?_, hm0⟩, ?_⟩
            · rw [List.get?_append hblt]; exact hb0
            · intro j bj hj hbj
              rcases get?_append_elem done b j bj hbj with ⟨hjl, hjd⟩ | ⟨hj0, rfl⟩
              · exact hfirst j bj hj hjd
              · omega)
          (by rw [hdlen]; exact h)
      | false =>
        subst htp
        rw [if_neg (by simp : ¬ (false = true))] at h
        rw [hassoc]
        refine ih (done ++ [b]) done.length true ov idx
          (by intro hh; cases hh)
          (by
            intro _
            refine ⟨⟨b, get?_append_last done b, h1⟩, ?_⟩
            intro j bj hj hbj
            rcases get?_append_elem done b j bj hbj with ⟨hjl, hjd⟩ | ⟨hj0, rfl⟩
            · exact (hF rfl).1 bj (get?_mem' done j bj hjd)
            · omega)
          (by rw [hdlen]; exact h)
    · rw [if_neg h1] at h
      dsimp only at h
      have h1f : (a.Tool.isSome && (a.Tool == b.Tool)) = false := by
        revert h1; cases (a.Tool.isSome && (a.Tool == b.Tool)) <;> simp
      by_cases h2 : toolSupplies compOf b.Tool a.Component = true
      · rw [if_pos h2] at h
        by_cases h3 : ((if toolSupplies compOf a.Tool b.Component
            then some b else ov).isSome || tp) = true
        · rw [if_pos h3] at h
          cases h
        · rw [if_neg h3] at h
          have htp : tp = false := by
            revert h3; cases tp <;> simp
          subst htp
          rw [hassoc]
          refine ih (done ++ [b]) (done.length + 1) false
            (if toolSupplies compOf a.Tool b.Component then some b else ov) idx
            (by
              intro _
              refine ⟨?_, Or.inr ⟨by omega, by rw [hdlen], ⟨b, ?_, h2⟩, ?_⟩⟩
              · intro b' hb'
                rcases List.mem_append.mp hb' with hb' | hb'
                · exact (hF rfl).1 b' hb'
                · rw [List.mem_singleton] at hb'
                  subst hb'
                  exact h1f
              · have : done.length + 1 - 1 = done.length := by omega
                rw [this]
                exact get?_append_last done b
              · intro j bj hj hbj
                have := get?_some_lt (done ++ [b]) j bj hbj
                rw [hdlen] at this
                omega)
            (by intro hh; cases hh)
            (by rw [hdlen]; exact h)
      · rw [if_neg h2] at h
        have h2f : toolSupplies compOf b.Tool a.Component = false := by
          revert h2; cases toolSupplies compOf b.Tool a.Component <;> simp
        cases htp : tp with
        | false =>
          subst htp
          rw [hassoc]
          refine ih (done ++ [b]) active false
            (if toolSupplies compOf a.Tool b.Component then some b else ov) idx
            (by
              intro _
              obtain ⟨hnm, hpos⟩ := hF rfl
              refine ⟨?_, ?_⟩
              · intro b' hb'
                rcases List.mem_append.mp hb' with hb' | hb'
                · exact hnm b' hb'
                · rw [List.mem_singleton] at hb'
                  subst hb'
                  exact h1f
              · rcases hpos with rfl | ⟨ha1, ha2, ⟨b1, hb1, hc1⟩, hrest⟩
                · exact Or.inl rfl
                · refine Or.inr ⟨ha1, by rw [hdlen]; omega, ⟨b1, ?_, hc1⟩, ?_⟩
                  · rw [List.get?_append (by omega : active - 1 < done.length)]
                    exact hb1
                  · intro j bj hj hbj
                    rcases get?_append_elem done b j bj hbj with
                      ⟨hjl, hjd⟩ | ⟨hj0, rfl⟩
                    · exact hrest j bj hj hjd
                    · exact h2f)
            (by intro hh; cases hh)
            (by rw [hdlen]; exact h)
        | true =>
          subst htp
          rw [hassoc]
          obtain ⟨⟨b0, hb0, hm0⟩, hfirst⟩ := hT rfl
          have hblt : active < done.length := get?_some_lt done active b0 hb0
          refine ih (done ++ [b]) active true
            (if toolSupplies compOf a.Tool b.Component then some b else ov) idx
            (by intro hh; cases hh)
            (by
              intro _
              refine ⟨⟨b0, ?_, hm0⟩, ?_⟩
              · rw [List.get?_append hblt]; exact hb0
              · intro j bj hj hbj
                rcases get?_append_elem done b j bj hbj with ⟨hjl, hjd⟩ | ⟨hj0, rfl⟩
                · exact hfirst j bj hj hjd
                · omega)
            (by rw [hdlen]; exact h)

theorem orderScanPos_spec (compOf : String → List (String × Bool))
    (a : Augment) (ordered : List Augment) (idx : Nat)
    (h : orderScanPos compOf a ordered = .ok idx) :
    InsertPos a ordered idx := by
  rw [orderScanPos] at h
  have := orderScanGo_spec compOf a ordered [] 0 false _ idx
    (by
      intro _
      exact ⟨(by intro b hb; cases hb), Or.inl rfl⟩)
    (by intro hh; cases hh)
    h
  simpa using this

theorem orderGo_contig (compOf : String → List (String × Bool)) :
    ∀ (todo ordered out : List Augment), ToolContig ordered →
      orderGo compOf todo ordered = .ok out → ToolContig out := by
  intro todo
  induction todo with
  | nil =>
    intro ordered out hc h
    rw [orderGo] at h
    injection h with h
    subst h
    exact hc
  | cons a rest ih =>
    intro ordered out hc h
    rw [orderGo] at h
    cases hscan : orderScanPos compOf a ordered with
    | error p => rw [hscan] at h; cases h
    | ok idx =>
      rw [hscan] at h
      exact ih _ out
        (toolContig_insertAt ordered a idx hc
          (orderScanPos_spec compOf a ordered idx hscan)) h

/-- A successful ordering pass yields a list whose same-tool augments are
contiguous, whatever the input order. -/
theorem orderAugments_contig (compOf : String → List (String × Bool))
    (l : List Augment) (h : (orderAugments compOf l).2 = Option.none) :
    ToolContig (orderAugments compOf l).1 := by
  rw [orderAugments] at h ⊢
  cases hgo : orderGo compOf l.reverse [] with
  | ok out =>
    dsimp only
    exact orderGo_contig compOf l.reverse [] out toolContig_nil hgo
  | error p =>
    rw [hgo] at h
    simp at h

theorem validateAugments_ok_shape (res : Nat → CheckBehavior)
    (env : EnvState) (augments : List Augment) (env' : EnvState)
    (augs' invalid : List Augment)
    (h : validateAugments res env augments = .ok (env', augs', invalid)) :
    ∃ failed, augs' = augments.map (markAugment failed) := by
  rw [validateAugments] at h
  cases happ : applyEnv res env (collectValidation augments).1 false
      (collectValidation augments).2.1 (collectValidation augments).2.2 with
  | error e => rw [happ] at h; cases h
  | ok out =>
    rw [happ] at h
    obtain ⟨env0, failed, executed⟩ := out
    simp only [Except.ok.injEq, Prod.mk.injEq] at h
    exact ⟨failed, h.2.1.symm⟩

theorem toolAt_map_mark (f : List Nat) (l : List Augment) (n : Nat) :
    toolAt (l.map (markAugment f)) n = toolAt l n := by
  rw [toolAt, toolAt, List.get?_map]
  cases l.get? n with
  | none => rfl
  | some b => rfl

theorem toolContig_map_mark (f : List Nat) (l : List Augment)
    (hc : ToolContig l) : ToolContig (l.map (markAugment f)) := by
  intro i j k t hij hjk hi hk
  rw [toolAt_map_mark] at hi hk ⊢
  exact hc i j k t hij hjk hi hk

theorem toolContig_append_none (l : List Augment) (a : Augment)
    (ha : a.Tool = Option.none) (hc : ToolContig l) :
    ToolContig (l ++ [a]) := by
  intro i j k t hij hjk hi hk
  have hto : ∀ n, toolAt (l ++ [a]) n = some t →
      n < l.length ∧ toolAt l n = some t := by
    intro n hn
    rw [toolAt_eq_some] at hn
    obtain ⟨b, hb, hbt⟩ := hn
    rcases get?_append_elem l a n b hb with ⟨hlt, hbd⟩ | ⟨hn0, rfl⟩
    · exact ⟨hlt, (toolAt_eq_some l n t).mpr ⟨b, hbd, hbt⟩⟩
    · rw [ha] at hbt; cases hbt
  obtain ⟨hi1, hi2⟩ := hto i hi
  obtain ⟨hk1, hk2⟩ := hto k hk
  have hj1 : j < l.length := by omega
  have hmid := hc i j k t hij hjk hi2 hk2
  rw [toolAt_eq_some] at hmid ⊢
  obtain ⟨b, hb, hbt⟩ := hmid
  exact ⟨b, by rw [List.get?_append hj1]; exact hb, hbt⟩

/-- Every successful exit of the retry loop commits a contiguously
ordered list: the committed augments are the marking of a successful
`_order_augments` output. -/
theorem addLoop_true_contig (res : Nat → CheckBehavior)
    (base : List String) (compOf : String → List (String × Bool))
    (ctools : List String) (orig : List Augment) :
    ∀ (fuel : Nat) (augs : List Augment) (env : EnvState) (change : List Nat)
      (changes : List (List Nat)) (doLoop : Bool) (st' : ResolverState),
      addLoop res base compOf ctools orig fuel augs env change changes doLoop =
        some (.ok (true, st')) →
      ToolContig st'.augments := by
  intro fuel
  induction fuel with
  | zero => intro _ _ _ _ _ _ h; cases h
  | succ fuel ih =>
    intro augs env change changes doLoop st' h
    rw [addLoop.eq_def] at h
    split at h
    · cases h
    · rename_i fuel2 heq
      injection heq with heq
      subst heq
      split at h
      · injection h with h
        injection h with h
        injection h with h1 h2
        cases h1
      · split at h
        · exact ih _ _ _ _ _ _ h
        · rename_i s hstage
          dsimp only at h
          split at h
          · exact ih _ _ _ _ _ _ h
          · rename_i hord
            split at h
            · cases h
            · rename_i env2 augsV invalid hval
              split at h
              · injection h with h
                injection h with h
                injection h with h1 h2
                obtain ⟨fl, hfl⟩ := validateAugments_ok_shape res _ _ _ _ _ hval
                rw [← h2]
                dsimp only
                rw [hfl]
                exact toolContig_map_mark fl _
                  (orderAugments_contig compOf s.1 hord)
              · exact ih _ _ _ _ _ _ h

/-- A successful `AddAugment` commits a contiguously ordered list,
provided the previous committed list was contiguous (needed only for the
pure check/dependency path, which appends a tool-less augment without
reordering). -/
theorem AddAugment_true_contig (res : Nat → CheckBehavior)
    (base : List String) (compOf : String → List (String × Bool))
    (ctools : List String) (fuel : Nat) (st : ResolverState)
    (spec : Specification) (st' : ResolverState)
    (hc : ToolContig st.augments)
    (h : AddAugment res base compOf ctools fuel st spec =
      some (.ok (true, st'))) :
    ToolContig st'.augments := by
  rw [AddAugment] at h
  split at h
  · split at h
    · cases h
    · rename_i env2 augsV invalid hval
      split at h
      · injection h with h
        injection h with h
        injection h with h1 h2
        obtain ⟨fl, hfl⟩ := validateAugments_ok_shape res st.env _ env2 augsV
          invalid hval
        rw [← h2]
        dsimp only
        rw [hfl]
        exact toolContig_map_mark fl _
          (toolContig_append_none st.augments _ rfl hc)
      · injection h with h
        injection h with h
        injection h with h1 h2
        cases h1
  · split at h
    · injection h with h
      injection h with h
      injection h with h1 h2
      cases h1
    · exact addLoop_true_contig res base compOf ctools st.augments
        fuel _ _ _ _ _ st' h

/-- The committed states a resolver session can reach: the fresh session,
extended by any sequence of `AddAugment` calls (successful or not, with
any check oracle and loop bound per call). -/
inductive Reaches (base : List String) (compOf : String → List (String × Bool))
    (ctools : List String) : ResolverState → Prop where
  | init : Reaches base compOf ctools initialState
  | step {st st' : ResolverState} (res : Nat → CheckBehavior) (fuel : Nat)
      (spec : Specification) (b : Bool) :
      Reaches base compOf ctools st →
      AddAugment res base compOf ctools fuel st spec = some (.ok (b, st')) →
      Reaches base compOf ctools st'

/-- C6: in every committed state of a session — hence in the final apply
order — the augments sharing a provider occupy a contiguous sub-range of
the committed list. -/
theorem c6_contiguity (base : List String)
    (compOf : String → List (String × Bool)) (ctools : List String)
    (st : ResolverState) (h : Reaches base compOf ctools st) :
    ToolContig st.augments := by
  induction h with
  | init => exact toolContig_nil
  | step res fuel spec b hr heq ih =>
    cases b with
    | true => exact AddAugment_true_contig res base compOf ctools fuel _ spec _ ih heq
    | false =>
      have hpres := AddAugment_false_preserves res base compOf ctools fuel _ spec _ heq
      rw [hpres]
      exact ih

/-- A pure check/dependency specification with nothing to resolve. -/
def trivialSpec : Specification :=
  { sid := 5, Components := Option.none, Checks := Option.none,
    Dependencies := Option.none }

/-- C6 witness: the contiguity of the committed list of a concrete
reachable session (one successful `AddAugment`). -/
theorem c6_contiguity_witness :
    ToolContig [⟨0, trivialSpec, Option.none, Option.none, true⟩] :=
  c6_contiguity [] emptyCompOf []
    ⟨⟨[], []⟩, [⟨0, trivialSpec, Option.none, Option.none, true⟩]⟩
    (Reaches.step failZero 1 trivialSpec true Reaches.init (by rfl))

end ConfigureEx
